import Mathlib

/-!
Verification of the codemode core against its source.

The development shallowly embeds the TypeScript sources:
* `src/spec.ts` — `resolveRefs`, `processSpec`, `extractTags`,
  `extractServerBasePath` (spec processor);
* `request-bridge.ts` — `validatePath`, `filterHeaders`,
  `readResponseWithLimit`, `createRequestBridge` (request bridge);
* `codemode.ts` — the `CodeMode` orchestrator's request-bridge lifecycle.

JSON-like runtime values are modelled by the inductive `JVal`; JavaScript
objects are association lists in insertion order, `undefined` is `JVal.undef`.
Host functions, JSON (de)serialisation of request/response bodies and WHATWG
URL parsing are outside the JSON data model and are abstracted where noted.
-/

namespace CodemodeProof

/-- JSON-like JavaScript runtime values: primitives, arrays, and plain objects
    given as association lists in insertion order.  `undef` models the
    JavaScript value `undefined`. -/
inductive JVal where
  | str (s : String)
  | num (n : Int)
  | bool (b : Bool)
  | null
  | undef
  | arr (xs : List JVal)
  | obj (kvs : List (String × JVal))
deriving Repr

/-! ## String helpers shared by the embeddings

JavaScript string operations are modelled on the character lists underlying
Lean strings; the case mappings are the ASCII ones, which is what the upper-
and lower-casing in the source is applied to (HTTP methods, header names). -/

/-- ASCII upper-casing of one character, as JavaScript `toUpperCase` acts on
    ASCII input. -/
def charUp (c : Char) : Char :=
  if 'a' ≤ c ∧ c ≤ 'z' then Char.ofNat (c.toNat - 32) else c

/-- ASCII lower-casing of one character, as JavaScript `toLowerCase` acts on
    ASCII input. -/
def charDown (c : Char) : Char :=
  if 'A' ≤ c ∧ c ≤ 'Z' then Char.ofNat (c.toNat + 32) else c

/-- Model of JavaScript `s.toUpperCase()` for ASCII strings. -/
def strUp (s : String) : String := String.mk (s.data.map charUp)

/-- Model of JavaScript `s.toLowerCase()` for ASCII strings. -/
def strDown (s : String) : String := String.mk (s.data.map charDown)

/-- Decidable list-infix test used to model JavaScript `String.includes`. -/
def infixList : List Char → List Char → Bool
  | _, [] => false
  | pat, c :: rest => pat.isPrefixOf (c :: rest) || infixList pat rest

/-- Model of JavaScript `s.includes(pat)` for a non-empty pattern. -/
def strHas (s pat : String) : Bool :=
  pat.data.isPrefixOf s.data || infixList pat.data s.data

/-- Model of JavaScript `s.startsWith(pre)`. -/
def strStarts (s pre : String) : Bool := pre.data.isPrefixOf s.data

/-- Model of JavaScript `s.includes(c)` for a single character. -/
def strHasChar (s : String) (c : Char) : Bool := s.data.contains c

/-! ## Request bridge (`request-bridge.ts`)

The richer bridge iteration is embedded: the one with the full blocked-header
pattern list, the smuggling checks in `validatePath`, and the streaming
`readResponseWithLimit`. -/

/-- The `ALLOWED_METHODS` set of `request-bridge.ts`, in source order. -/
def allowedMethods : List String :=
  ["GET", "POST", "PUT", "PATCH", "DELETE", "HEAD", "OPTIONS"]

/-- Shallow embedding of the `BLOCKED_HEADER_PATTERNS` regex list: each
    pattern is either a whole-name match or an anchored prefix match,
    case-insensitive, so matching a name is equivalent to comparing its
    ASCII lower-casing. -/
def isBlockedHeader (k : String) : Bool :=
  let l := strDown k
  l == "authorization" || l == "cookie" || l == "host" || l == "origin" ||
  l == "referer" || strStarts l "x-forwarded-" || l == "x-real-ip" ||
  l == "x-client-ip" || l == "cf-connecting-ip" || l == "true-client-ip" ||
  strStarts l "proxy-" || l == "transfer-encoding" || l == "connection" ||
  l == "upgrade" || l == "te"

/-- Embedding of `validatePath` from `request-bridge.ts`: the sequential
    checks, in source order, each with the exact error message thrown. -/
def validatePath (path : String) : Except String Unit :=
  if strHas path "://" then
    .error ("Invalid path: must not contain \"://\" — got \"" ++ path ++ "\"")
  else if !strStarts path "/" then
    .error ("Invalid path: must start with \"/\" — got \"" ++ path ++ "\"")
  else if strStarts path "//" then
    .error ("Invalid path: must not start with \"//\" — got \"" ++ path ++ "\"")
  else if strHasChar path (Char.ofNat 0) then
    .error "Invalid path: must not contain null bytes"
  else if strHasChar path '\r' || strHasChar path '\n' then
    .error "Invalid path: must not contain CR/LF characters"
  else if strHasChar path '\\' then
    .error "Invalid path: must not contain backslashes"
  else .ok ()

/-- Embedding of `filterHeaders`: whitelist mode keeps exactly the headers
    whose lower-cased name is among the lower-cased allowed names; blocklist
    mode drops the names matching a blocked pattern. -/
def filterHeaders (headers : List (String × String)) :
    Option (List String) → List (String × String)
  | some allowed =>
      let lowers := allowed.map strDown
      headers.filter (fun kv => lowers.contains (strDown kv.1))
  | none => headers.filter (fun kv => !isBlockedHeader kv.1)

/-- Streaming loop of `readResponseWithLimit`: reads chunks in order keeping a
    running byte total, failing the moment the total would exceed the limit;
    the overflowing chunk is not accumulated and later chunks are not read. -/
def readChunks (maxBytes : Nat) : Nat → List (List Nat) → Except String (List (List Nat))
  | _, [] => .ok []
  | total, c :: rest =>
      let total2 := total + c.length
      if maxBytes < total2 then
        .error ("Response too large: exceeded limit of " ++ toString maxBytes ++ " bytes")
      else
        match readChunks maxBytes total2 rest with
        | .ok cs => .ok (c :: cs)
        | .error e => .error e

/-- Embedding of `readResponseWithLimit` on a stream-backed response body
    (a list of byte chunks); the UTF-8 decode at the end is modelled as the
    concatenation of the accumulated bytes. -/
def readResponseWithLimit (chunks : List (List Nat)) (maxBytes : Nat) :
    Except String (List Nat) :=
  match readChunks maxBytes 0 chunks with
  | .ok cs => .ok cs.flatten
  | .error e => .error e

/-- Request record handed to the bridge by sandbox code
    (`SandboxRequestOptions`).  `body = none` covers both an absent and a
    `null` body, the two cases the source treats alike. -/
structure SandboxReq where
  method : String
  path : String
  query : List (String × String)
  body : Option JVal
  headers : List (String × String)

/-- Host response as the bridge consumes it: a status, iterable headers and a
    stream of body byte chunks. -/
structure HostResp where
  status : Nat
  headers : List (String × String)
  chunks : List (List Nat)

/-- Request-init record passed to the host handler.  The JSON serialisation
    of the body is abstracted: the init carries the value that
    `JSON.stringify` would encode. -/
structure ReqInit where
  method : String
  headers : List (String × String)
  body : Option JVal

/-- Response returned to the sandbox.  The conditional `JSON.parse` of the
    body by content-type is not modelled; the body is the decoded byte
    sequence. -/
structure SandboxResp where
  status : Nat
  headers : List (String × String)
  body : List Nat

/-- First-match association-list lookup, the JavaScript own-property read on
    objects with unique keys. -/
def alookup : List (String × String) → String → Option String
  | [], _ => none
  | (k, v) :: rest, key => if k == key then some v else alookup rest key

/-- Builds the request init as `createRequestBridge` does: the filtered
    headers, and when a body is present, the body together with a
    `content-type` defaulted to `application/json` unless already set. -/
def mkInit (upperMethod : String) (fh : List (String × String)) :
    Option JVal → ReqInit
  | none => { method := upperMethod, headers := fh, body := none }
  | some b =>
      let h2 := match alookup fh "content-type" with
        | some _ => fh
        | none => fh ++ [("content-type", "application/json")]
      { method := upperMethod, headers := h2, body := some b }

/-- URL composition `new URL(path, baseUrl)` plus query parameters, abstracted
    to the concatenation that the source produces for a base URL without a
    path of its own; the claims under proof do not depend on it. -/
def composeUrl (baseUrl path : String) (_query : List (String × String)) : String :=
  baseUrl ++ path

/-- One invocation of the closure returned by `createRequestBridge`, as a
    function of the per-instance request counter.  The counter is incremented
    first; then the method is upper-cased and checked, the path validated, the
    headers filtered, the handler called, and the response body read under the
    streaming size limit. -/
def bridgeCall (handler : String → ReqInit → HostResp) (baseUrl : String)
    (maxRequests maxBytes : Nat) (allowed : Option (List String))
    (count : Nat) (req : SandboxReq) : Nat × Except String SandboxResp :=
  let c2 := count + 1
  if maxRequests < c2 then
    (c2, .error ("Request limit exceeded: max " ++ toString maxRequests ++
      " requests per execution"))
  else
    let um := strUp req.method
    if allowedMethods.contains um then
      match validatePath req.path with
      | .error e => (c2, .error e)
      | .ok _ =>
          let url := composeUrl baseUrl req.path req.query
          let fh := filterHeaders req.headers allowed
          let init := mkInit um fh req.body
          let resp := handler url init
          match readResponseWithLimit resp.chunks maxBytes with
          | .error e => (c2, .error e)
          | .ok bytes =>
              (c2, .ok { status := resp.status, headers := resp.headers, body := bytes })
    else
      (c2, .error ("Invalid HTTP method: \"" ++ req.method ++ "\". Allowed: " ++
        String.intercalate ", " allowedMethods))

/-! ## CodeMode orchestrator request-bridge lifecycle (`codemode.ts`)

In the source the constructor calls `createRequestBridge` once and stores the
resulting closure in the instance (`this.requestBridge`); every `execute`
reuses that same closure, so the request counter lives in the instance, not in
the call.  The model keeps exactly that counter as the instance state. -/

/-- Instance state of a `CodeMode` object that is relevant to the request
    budget: the counter of the single bridge closure created by the
    constructor. -/
structure CMState where
  count : Nat

/-- Sequential bridge calls issued by one piece of agent code inside a single
    `execute`: each awaited call threads the shared instance counter, and a
    thrown bridge error aborts the run and surfaces as the execution error. -/
def cmRunRequests (handler : String → ReqInit → HostResp) (baseUrl : String)
    (maxRequests maxBytes : Nat) (allowed : Option (List String)) :
    CMState → List SandboxReq → CMState × Except String Unit
  | st, [] => (st, .ok ())
  | st, r :: rs =>
      match bridgeCall handler baseUrl maxRequests maxBytes allowed st.count r with
      | (c2, .error e) => (⟨c2⟩, .error e)
      | (c2, .ok _) =>
          cmRunRequests handler baseUrl maxRequests maxBytes allowed ⟨c2⟩ rs

/-- One `CodeMode.execute` call, restricted to its request-bridge effect: the
    agent code issues a list of bridge requests against the instance-owned
    closure.  The state returned is the state the *next* `execute` on the same
    instance starts from. -/
def cmExecute (handler : String → ReqInit → HostResp) (baseUrl : String)
    (maxRequests maxBytes : Nat) (allowed : Option (List String))
    (st : CMState) (reqs : List SandboxReq) : CMState × Except String Unit :=
  cmRunRequests handler baseUrl maxRequests maxBytes allowed st reqs

/-! ## Spec processor (`spec.ts`)

The embedding follows `src/spec.ts`: `resolveRefs` with its ancestor-chain
set, depth bound and cross-branch memoisation cache, then `processSpec`,
`extractServerBasePath` and `extractTags`. -/

/-- First-match association-list lookup into a `JVal` object: the JavaScript
    own-property read (objects built from JSON have unique keys, so the first
    match is the property). -/
def jvLookup : List (String × JVal) → String → Option JVal
  | [], _ => none
  | (k, v) :: rest, key => if k == key then some v else jvLookup rest key

/-- The `DANGEROUS_KEYS` set of `spec.ts`. -/
def dangerousKey (k : String) : Bool :=
  k == "__proto__" || k == "constructor" || k == "prototype"

/-- Memoisation cache of `resolveRefs` (`_cache : Map<string, unknown>`),
    as an insertion-ordered association list. -/
abbrev Cache := List (String × JVal)

/-- Lookup in an insertion-ordered map, modelling `Map.get` / own-property
    reads used as maps. -/
def mapFind : Cache → String → Option JVal
  | [], _ => none
  | (k, v) :: rest, key => if k == key then some v else mapFind rest key

/-- Insertion into an insertion-ordered map: overwrite in place when the key
    exists, append otherwise — the semantics of both `Map.set` and the
    `o[k] = v` object assignment of the source. -/
def mapSet : Cache → String → JVal → Cache
  | [], key, v => [(key, v)]
  | (k, w) :: rest, key, v =>
      if k == key then (k, v) :: rest else (k, w) :: mapSet rest key v

/-- Removal of the first occurrence of `pat`, modelling the JavaScript
    `ref.replace("#/", "")` (which replaces only the first occurrence). -/
def removeFirst (pat : List Char) : List Char → List Char
  | [] => []
  | c :: rest =>
      if pat.isPrefixOf (c :: rest) then (c :: rest).drop pat.length
      else c :: removeFirst pat rest

/-- Split on `/`, modelling JavaScript `s.split("/")` (so the empty string
    yields `[""]`). -/
def splitSlash : List Char → List (List Char)
  | [] => [[]]
  | c :: rest =>
      match splitSlash rest with
      | [] => [[c]]
      | g :: gs => if c = '/' then [] :: g :: gs else (c :: g) :: gs

/-- The pointer segments of a `$ref`:
    `ref.replace("#/", "").split("/")` from `spec.ts`. -/
def refParts (ref : String) : List String :=
  (splitSlash (removeFirst "#/".data ref.data)).map String.mk

/-- JavaScript member access `v[k]` restricted to the JSON data model:
    a property read on an object, `undefined` otherwise. -/
def jsGet : JVal → String → JVal
  | .obj kvs, k => (jvLookup kvs k).getD .undef
  | _, _ => (.undef)

/-- Canonical numeric array index: the strings under which JavaScript arrays
    expose their elements. -/
def canonIndex (part : String) : Option Nat :=
  match part.toNat? with
  | some n => if toString n == part then some n else none
  | none => none

/-- One step `resolved?.[part]` of the pointer walk: a property read on an
    object, a canonical-index read on an array, `undefined` on everything
    else (array `length` and inherited properties are outside the JSON data
    model). -/
def walkStep (cur : JVal) (part : String) : JVal :=
  match cur with
  | .obj _ => jsGet cur part
  | .arr xs =>
      match canonIndex part with
      | some n => (xs.get? n).getD .undef
      | none => .undef
  | _ => (.undef)

/-- The pointer walk of `resolveRefs`: `resolved = resolved?.[part]` folded
    over the segments, starting from the root document. -/
def walkParts (root : JVal) (parts : List String) : JVal :=
  parts.foldl walkStep root

mutual

/-- Embedding of `resolveRefs` from `spec.ts`.  For an object carrying a
    string-valued `$ref`: ancestor-chain check, depth check, memo lookup,
    unsafe-segment check, then resolution of the walked-to target with the
    chain extended by the ref, the result being cached.  Other objects and
    arrays are traversed entry by entry with the same chain, skipping
    dangerous keys; primitives pass through.  The cache is threaded in
    evaluation order, modelling the shared mutable `Map`. -/
def resolveRefs (v root : JVal) (seen : List String) (md : Nat) (cache : Cache) :
    JVal × Cache :=
  match v with
  | .obj kvs =>
    match jvLookup kvs "$ref" with
    | some (.str ref) =>
      if ref ∈ seen then (.obj [("$circular", .str ref)], cache)
      else if md ≤ seen.length then
        (.obj [("$circular", .str ref), ("$reason", .str "max depth exceeded")], cache)
      else
        match mapFind cache ref with
        | some v2 => (v2, cache)
        | none =>
          if (refParts ref).any dangerousKey then
            (.obj [("$ref", .str ref), ("$error", .str "unsafe ref path")], cache)
          else
            let target := walkParts root (refParts ref)
            let rc := resolveRefs target root (seen ++ [ref]) md cache
            (rc.1, mapSet rc.2 ref rc.1)
    | _ =>
      let rc := resolveEntries kvs root seen md cache
      (.obj rc.1, rc.2)
  | .arr xs =>
      let rc := resolveList xs root seen md cache
      (.arr rc.1, rc.2)
  | _ => (v, cache)
termination_by (md - seen.length, sizeOf v)

/-- Element-wise resolution of an array (`obj.map(...)` with the shared
    cache threaded left to right). -/
def resolveList (xs : List JVal) (root : JVal) (seen : List String) (md : Nat)
    (cache : Cache) : List JVal × Cache :=
  match xs with
  | [] => ([], cache)
  | x :: rest =>
      let rc := resolveRefs x root seen md cache
      let rc2 := resolveList rest root seen md rc.2
      (rc.1 :: rc2.1, rc2.2)
termination_by (md - seen.length, sizeOf xs)

/-- Key-by-key resolution of a plain object: dangerous keys are skipped, the
    others are resolved with the same ancestor chain, the cache threaded in
    insertion order. -/
def resolveEntries (kvs : List (String × JVal)) (root : JVal) (seen : List String)
    (md : Nat) (cache : Cache) : List (String × JVal) × Cache :=
  match kvs with
  | [] => ([], cache)
  | (k, v) :: rest =>
      if dangerousKey k then resolveEntries rest root seen md cache
      else
        let rc := resolveRefs v root seen md cache
        let rc2 := resolveEntries rest root seen md rc.2
        ((k, rc.1) :: rc2.1, rc2.2)
termination_by (md - seen.length, sizeOf kvs)

end

/-- JavaScript truthiness on JSON-like values. -/
def truthy : JVal → Bool
  | .str s => s ≠ ""
  | .num n => n ≠ 0
  | .bool b => b
  | .null => false
  | .undef => false
  | .arr _ => true
  | .obj _ => true

/-- Nullish test for the `??` operator. -/
def nullish : JVal → Bool
  | .null => true
  | .undef => true
  | _ => false

/-- Index-keyed entries of an array, as `Object.entries` exposes them. -/
def idxEntries : Nat → List JVal → List (String × JVal)
  | _, [] => []
  | i, x :: rest => (toString i, x) :: idxEntries (i + 1) rest

/-- Model of `Object.entries` restricted to the JSON data model: the own
    entries of an object, the indexed entries of an array, nothing for
    primitives. -/
def jsEntries : JVal → List (String × JVal)
  | .obj kvs => kvs
  | .arr xs => idxEntries 0 xs
  | _ => []

/-- The `HTTP_METHODS` list of `spec.ts`. -/
def httpMethods : List String := ["get", "post", "put", "patch", "delete"]

/-- Model of `/\/+$/`-stripping: remove all trailing slashes. -/
def stripTrailingSlashes (s : String) : String :=
  String.mk (s.data.reverse.dropWhile (fun c => c = '/')).reverse

/-- Bytes after the first occurrence of `pat`, or `none` when `pat` does not
    occur. -/
def afterFirst (pat : List Char) : List Char → Option (List Char)
  | [] => none
  | c :: rest =>
      if pat.isPrefixOf (c :: rest) then some ((c :: rest).drop pat.length)
      else afterFirst pat rest

/-- Pathname of an absolute URL, as `new URL(url).pathname` computes it for
    the scheme-authority-path URLs the source feeds it: the part from the
    first `/` after the authority up to a query or fragment, defaulting to
    `/`. -/
def urlPathname (url : String) : Option String :=
  match afterFirst "://".data url.data with
  | none => none
  | some rest =>
      let p := rest.dropWhile (fun c => c ≠ '/')
      if p = [] then some "/"
      else some (String.mk (p.takeWhile (fun c => c ≠ '?' ∧ c ≠ '#')))

/-- Embedding of `extractServerBasePath`: the pathname of the first server
    URL with trailing slashes stripped, the raw URL when it is relative
    (the `URL` constructor throws), the empty string when no server with a
    string URL is declared.  Absolute URLs are recognised by `://`, the form
    the source expects. -/
def extractServerBasePath (spec : JVal) : String :=
  match jsGet spec "servers" with
  | .arr [] => ""
  | .arr (s0 :: _) =>
      match jsGet s0 "url" with
      | .str url =>
          match urlPathname url with
          | some p => stripTrailingSlashes p
          | none => stripTrailingSlashes url
      | _ => ""
  | _ => ""

/-- The `successResponses` filter of `processSpec`: the entries of the
    responses value whose status key starts with `2` or equals `default`,
    collected only when the responses value is truthy. -/
def successFilter (resps : JVal) : List (String × JVal) :=
  if truthy resps then
    (jsEntries resps).filter (fun kv => strStarts kv.1 "2" || kv.1 == "default")
  else []

/-- Construction of one processed operation object, in the source's field
    order: `summary`, `description`, `tags` copied verbatim; `parameters`,
    `requestBody` and the filtered-or-raw `responses` resolved through
    `resolveRefs`, each with a fresh ancestor chain and a fresh cache, as the
    defaulted arguments give. -/
def buildOp (spec : JVal) (md : Nat) (op : JVal) : JVal :=
  .obj [("summary", jsGet op "summary"),
        ("description", jsGet op "description"),
        ("tags", jsGet op "tags"),
        ("parameters", (resolveRefs (jsGet op "parameters") spec [] md []).1),
        ("requestBody", (resolveRefs (jsGet op "requestBody") spec [] md []).1),
        ("responses", (resolveRefs
          (if 0 < (successFilter (jsGet op "responses")).length
           then .obj (successFilter (jsGet op "responses"))
           else jsGet op "responses") spec [] md []).1)]

/-- Construction of one processed path item: the methods of `HTTP_METHODS`
    whose operation is truthy, in that order. -/
def buildItem (spec : JVal) (md : Nat) (item : JVal) : List (String × JVal) :=
  httpMethods.foldl
    (fun acc m =>
      if truthy (jsGet item m) then mapSet acc m (buildOp spec md (jsGet item m))
      else acc) []

/-- The full path of a processed path entry:
    `basePath ? basePath + path : path`. -/
def fullPathOf (basePath p : String) : String :=
  if basePath == "" then p else basePath ++ p

/-- The `paths` object built by `processSpec`: every truthy path item is
    processed under its base-path-prefixed key (assignment semantics, so a
    duplicate full path keeps the last item). -/
def processSpecPaths (spec : JVal) (md : Nat) (basePath : String)
    (rawPaths : JVal) : List (String × JVal) :=
  (jsEntries rawPaths).foldl
    (fun acc pv =>
      if truthy pv.2 then
        mapSet acc (fullPathOf basePath pv.1) (.obj (buildItem spec md pv.2))
      else acc) []

/-- Embedding of `processSpec`: `{ paths }` with every path item processed;
    `info`, `servers` and `components` are dropped. -/
def processSpec (spec : JVal) (md : Nat) : JVal :=
  let rawPaths := if nullish (jsGet spec "paths") then .obj [] else jsGet spec "paths"
  let basePath := extractServerBasePath spec
  .obj [("paths", .obj (processSpecPaths spec md basePath rawPaths))]

/-- String elements of a tags value: iteration of `op.tags`, whose elements
    are strings by the `OperationObject` type. -/
def strElems : JVal → List String
  | .arr xs => xs.filterMap (fun t => match t with | .str s => some s | _ => none)
  | _ => []

/-- Tags contributed by one path item, in method order. -/
def itemTags (item : JVal) : List String :=
  httpMethods.foldl
    (fun acc m =>
      let t := jsGet (jsGet item m) "tags"
      if truthy t then acc ++ strElems t else acc) []

/-- Every operation tag of the document in traversal order: path order, then
    method order, then tag order — the order in which `extractTags` counts
    them. -/
def allTags (spec : JVal) : List String :=
  let rawPaths := jsGet spec "paths"
  if truthy rawPaths then
    (jsEntries rawPaths).foldl
      (fun acc pv => if truthy pv.2 then acc ++ itemTags pv.2 else acc) []
  else []

/-- One counting step `tags.set(tag, (tags.get(tag) ?? 0) + 1)` on the
    insertion-ordered count map. -/
def bump : List (String × Nat) → String → List (String × Nat)
  | [], t => [(t, 1)]
  | (k, n) :: rest, t =>
      if k == t then (k, n + 1) :: rest else (k, n) :: bump rest t

/-- The tag-count map of `extractTags`: first-occurrence insertion order with
    per-tag occurrence counts. -/
def countTags (spec : JVal) : List (String × Nat) :=
  (allTags spec).foldl bump []

/-- Stable descending insertion by count: the element goes in front of the
    first entry with a count less than or equal to its own, so entries with
    equal counts keep their original order — the behaviour of the stable
    `toSorted((a, b) => b[1] - a[1])`. -/
def insertDesc (x : String × Nat) : List (String × Nat) → List (String × Nat)
  | [] => [x]
  | y :: rest => if y.2 ≤ x.2 then x :: y :: rest else y :: insertDesc x rest

/-- Stable insertion sort by descending count, the model of the stable
    `toSorted` call of `extractTags`. -/
def sortDesc : List (String × Nat) → List (String × Nat)
  | [] => []
  | x :: rest => insertDesc x (sortDesc rest)

/-- Embedding of `extractTags`: unique tags in descending count order (stable
    on ties). -/
def extractTags (spec : JVal) : List String :=
  (sortDesc (countTags spec)).map Prod.fst

/-! ## Lemmas about the streaming body reader -/

/-- When the running total plus the remaining bytes exceeds the limit, the
    streaming loop fails with the exact oversize message. -/
theorem readChunks_overflow (maxB : Nat) :
    ∀ (chunks : List (List Nat)) (total : Nat), total ≤ maxB →
      maxB < total + (chunks.map List.length).sum →
      readChunks maxB total chunks =
        .error ("Response too large: exceeded limit of " ++ toString maxB ++ " bytes") := by
  intro chunks
  induction chunks with
  | nil => intro total hle h; simp at h; omega
  | cons c rest ih =>
      intro total hle h
      simp only [readChunks]
      by_cases hc : maxB < total + c.length
      · simp [hc]
      · have h2 : maxB < total + c.length + ((rest.map List.length).sum) := by
          simp only [List.map_cons, List.sum_cons] at h; omega
        simp [hc, ih (total + c.length) (by omega) h2]

/-- When the total stays within the limit, the loop reads everything. -/
theorem readChunks_ok (maxB : Nat) :
    ∀ (chunks : List (List Nat)) (total : Nat),
      total + (chunks.map List.length).sum ≤ maxB →
      readChunks maxB total chunks = .ok chunks := by
  intro chunks
  induction chunks with
  | nil => intro total _; simp [readChunks]
  | cons c rest ih =>
      intro total h
      simp only [List.map_cons, List.sum_cons] at h
      have hc : ¬ maxB < total + c.length := by omega
      simp only [readChunks, if_neg hc]
      rw [ih (total + c.length) (by omega)]

/-- The loop never looks past the first chunk that overflows the limit: the
    result is the same as on the stream truncated right after that chunk. -/
theorem readChunks_truncates (maxB : Nat) :
    ∀ (pre : List (List Nat)) (total : Nat) (c : List Nat) (suf : List (List Nat)),
      maxB < total + (pre.map List.length).sum + c.length →
      readChunks maxB total (pre ++ c :: suf) = readChunks maxB total (pre ++ [c]) := by
  intro pre
  induction pre with
  | nil =>
      intro total c suf h
      simp at h
      simp [readChunks, show maxB < total + c.length by omega]
  | cons p ps ih =>
      intro total c suf h
      simp only [List.cons_append, readChunks]
      by_cases hp : maxB < total + p.length
      · simp [hp]
      · simp only [List.map_cons, List.sum_cons] at h
        simp [hp, ih (total + p.length) c suf (by omega)]

/-- C4: for every stream-backed response body longer than `maxResponseBytes`,
    the reader fails with the exact "Response too large" message; the failure
    happens before the body is fully read — the result depends only on the
    chunks up to and including the first one that overflows the running
    total, so no chunk beyond that point is ever read or accumulated — and
    bodies within the limit are read whole.  At the bridge level, a handler
    response with an oversized body makes the bridge call fail with that
    message. -/
theorem claim4_streamingSizeCap (chunks : List (List Nat)) (maxB : Nat) :
    (maxB < (chunks.map List.length).sum →
      readResponseWithLimit chunks maxB =
        .error ("Response too large: exceeded limit of " ++ toString maxB ++ " bytes")) ∧
    (∀ pre c suf, chunks = pre ++ c :: suf →
      maxB < (pre.map List.length).sum + c.length →
      readResponseWithLimit chunks maxB = readResponseWithLimit (pre ++ [c]) maxB) ∧
    ((chunks.map List.length).sum ≤ maxB →
      readResponseWithLimit chunks maxB = .ok chunks.flatten) ∧
    (∀ (handler : String → ReqInit → HostResp) (baseUrl : String)
       (maxRequests count : Nat) (allowed : Option (List String)) (req : SandboxReq),
      count < maxRequests →
      allowedMethods.contains (strUp req.method) = true →
      validatePath req.path = .ok () →
      maxB < (((handler (composeUrl baseUrl req.path req.query)
          (mkInit (strUp req.method) (filterHeaders req.headers allowed) req.body)).chunks.map
            List.length).sum) →
      bridgeCall handler baseUrl maxRequests maxB allowed count req =
        (count + 1, .error ("Response too large: exceeded limit of " ++ toString maxB ++ " bytes"))) := by
  refine ⟨?_, ?_, ?_, ?_⟩
  · intro h
    simp [readResponseWithLimit, readChunks_overflow maxB chunks 0 (by omega) (by omega)]
  · intro pre c suf hdec h
    subst hdec
    simp [readResponseWithLimit, readChunks_truncates maxB pre 0 c suf (by omega)]
  · intro h
    simp [readResponseWithLimit, readChunks_ok maxB chunks 0 (by omega)]
  · intro handler baseUrl maxRequests count allowed req hcount hmeth hpath hbig
    have hc2 : ¬ maxRequests < count + 1 := by omega
    simp only [bridgeCall, if_neg hc2, hmeth, if_true, hpath]
    rw [readResponseWithLimit,
      readChunks_overflow maxB _ 0 (by omega) (by simpa using hbig)]

/-- C4 witness: a two-chunk body of 6 bytes against a 5-byte limit fails with
    the oversize message, and the failure is already determined by the first
    chunk, which overflows on its own. -/
theorem claim4_streamingSizeCap_witness :
    readResponseWithLimit [[1, 2, 3, 4, 5, 6], [7]] 5 =
      .error "Response too large: exceeded limit of 5 bytes" ∧
    readResponseWithLimit [[1, 2, 3, 4, 5, 6], [7]] 5 =
      readResponseWithLimit [[1, 2, 3, 4, 5, 6]] 5 := by
  constructor
  · have h := (claim4_streamingSizeCap [[1, 2, 3, 4, 5, 6], [7]] 5).1 (by decide)
    simpa using h
  · have h := (claim4_streamingSizeCap [[1, 2, 3, 4, 5, 6], [7]] 5).2.1
      [] [1, 2, 3, 4, 5, 6] [[7]] rfl (by decide)
    simpa using h

/-- C7: header filtering.  In whitelist mode a header survives exactly when
    its ASCII lower-cased name equals the lower-casing of an allowed name; in
    blocklist mode it survives exactly when its name matches none of the
    fifteen case-insensitive blocked patterns; surviving headers keep their
    original names, values and order. -/
theorem claim7_headerFiltering (headers : List (String × String)) :
    (∀ (allowed : List String) (kv : String × String),
      kv ∈ filterHeaders headers (some allowed) ↔
        kv ∈ headers ∧ strDown kv.1 ∈ allowed.map strDown) ∧
    (∀ kv : String × String,
      kv ∈ filterHeaders headers none ↔
        kv ∈ headers ∧
        ¬(strDown kv.1 = "authorization" ∨ strDown kv.1 = "cookie" ∨
          strDown kv.1 = "host" ∨ strDown kv.1 = "origin" ∨
          strDown kv.1 = "referer" ∨ strStarts (strDown kv.1) "x-forwarded-" = true ∨
          strDown kv.1 = "x-real-ip" ∨ strDown kv.1 = "x-client-ip" ∨
          strDown kv.1 = "cf-connecting-ip" ∨ strDown kv.1 = "true-client-ip" ∨
          strStarts (strDown kv.1) "proxy-" = true ∨ strDown kv.1 = "transfer-encoding" ∨
          strDown kv.1 = "connection" ∨ strDown kv.1 = "upgrade" ∨
          strDown kv.1 = "te")) ∧
    (∀ allowed, filterHeaders headers (some allowed) =
      headers.filter (fun kv => (allowed.map strDown).contains (strDown kv.1))) ∧
    (filterHeaders headers none = headers.filter (fun kv => !isBlockedHeader kv.1)) := by
  refine ⟨?_, ?_, fun _ => rfl, rfl⟩
  · intro allowed kv
    simp [filterHeaders, List.mem_filter]
  · intro kv
    simp only [filterHeaders, List.mem_filter, isBlockedHeader, Bool.not_eq_true',
      Bool.or_eq_false_iff, beq_eq_false_iff_ne, ne_eq, Bool.not_eq_true, not_or]
    tauto

/-- C7 witness: the blocklist scenario of the specification — of
    `authorization`, `cookie`, `host`, `x-forwarded-for`,
    `proxy-authorization`, `accept`, `x-custom`, only `accept` and `x-custom`
    survive — and the whitelist keeps exactly `accept` and `content-type`. -/
theorem claim7_headerFiltering_witness :
    ("accept", "1") ∈ filterHeaders
        [("authorization", "a"), ("cookie", "b"), ("host", "c"),
         ("x-forwarded-for", "d"), ("proxy-authorization", "e"),
         ("accept", "1"), ("x-custom", "2")] none ∧
    ¬ ("authorization", "a") ∈ filterHeaders
        [("authorization", "a"), ("cookie", "b"), ("host", "c"),
         ("x-forwarded-for", "d"), ("proxy-authorization", "e"),
         ("accept", "1"), ("x-custom", "2")] none := by
  constructor
  · exact ((claim7_headerFiltering _).2.1 _).mpr (by constructor <;> decide)
  · intro h
    have h2 := ((claim7_headerFiltering _).2.1 _).mp h
    revert h2
    decide

/-- C10: every bridge invocation increments the request counter before any
    method or path validation, so a call rejected for an invalid method or an
    invalid path still consumes one unit of the budget, and once the counter
    has reached the budget every further call fails with the request-limit
    error.  Concretely, with `maxRequests = 2`, two invalid-method calls
    followed by a well-formed call leave the third failing with the limit
    error. -/
theorem claim10_rejectedCallsConsumeBudget
    (handler : String → ReqInit → HostResp) (baseUrl : String)
    (maxRequests maxB count : Nat) (allowed : Option (List String))
    (req : SandboxReq) :
    ((bridgeCall handler baseUrl maxRequests maxB allowed count req).1 = count + 1) ∧
    (count < maxRequests → allowedMethods.contains (strUp req.method) = false →
      (bridgeCall handler baseUrl maxRequests maxB allowed count req).2 =
        .error ("Invalid HTTP method: \"" ++ req.method ++ "\". Allowed: " ++
          String.intercalate ", " allowedMethods)) ∧
    (count < maxRequests → allowedMethods.contains (strUp req.method) = true →
      validatePath req.path = .error ("Invalid path: must start with \"/\" — got \"" ++
        req.path ++ "\"") →
      (bridgeCall handler baseUrl maxRequests maxB allowed count req).2 =
        .error ("Invalid path: must start with \"/\" — got \"" ++ req.path ++ "\"")) ∧
    (maxRequests ≤ count →
      (bridgeCall handler baseUrl maxRequests maxB allowed count req).2 =
        .error ("Request limit exceeded: max " ++ toString maxRequests ++
          " requests per execution")) ∧
    ((bridgeCall (fun _ _ => ⟨200, [], []⟩) "http://localhost" 2 1000 none
        ((bridgeCall (fun _ _ => ⟨200, [], []⟩) "http://localhost" 2 1000 none
          ((bridgeCall (fun _ _ => ⟨200, [], []⟩) "http://localhost" 2 1000 none 0
            ⟨"BREW", "/ok", [], none, []⟩).1)
          ⟨"BREW", "/ok", [], none, []⟩).1)
        ⟨"GET", "/ok", [], none, []⟩).2 =
      .error "Request limit exceeded: max 2 requests per execution") := by
  refine ⟨?_, ?_, ?_, ?_, by rfl⟩
  · simp only [bridgeCall]
    split
    · rfl
    · split
      · split
        · rfl
        · split <;> rfl
      · rfl
  · intro hc hm
    have h1 : ¬ maxRequests < count + 1 := by omega
    have hmem : strUp req.method ∉ allowedMethods := by simpa using hm
    simp [bridgeCall, h1, hmem]
  · intro hc hm hv
    have h1 : ¬ maxRequests < count + 1 := by omega
    have hmem : strUp req.method ∈ allowedMethods := by simpa using hm
    simp [bridgeCall, h1, hmem, hv]
  · intro hc
    have h1 : maxRequests < count + 1 := by omega
    simp [bridgeCall, h1]

/-- C10 witness: at the budget boundary (`count = maxRequests = 1`), a
    well-formed call fails with the limit error while still incrementing the
    counter, and an invalid-method call below the budget is rejected with the
    method error. -/
theorem claim10_rejectedCallsConsumeBudget_witness :
    (bridgeCall (fun _ _ => ⟨200, [], []⟩) "http://localhost" 1 1000 none 1
      ⟨"GET", "/ok", [], none, []⟩).2 =
      .error "Request limit exceeded: max 1 requests per execution" ∧
    (bridgeCall (fun _ _ => ⟨200, [], []⟩) "http://localhost" 2 1000 none 0
      ⟨"BREW", "/ok", [], none, []⟩).2 =
      .error "Invalid HTTP method: \"BREW\". Allowed: GET, POST, PUT, PATCH, DELETE, HEAD, OPTIONS" := by
  constructor
  · have h := (claim10_rejectedCallsConsumeBudget (fun _ _ => ⟨200, [], []⟩)
      "http://localhost" 1 1000 1 none ⟨"GET", "/ok", [], none, []⟩).2.2.2.1
      (by decide)
    simpa using h
  · have h := (claim10_rejectedCallsConsumeBudget (fun _ _ => ⟨200, [], []⟩)
      "http://localhost" 2 1000 0 none ⟨"BREW", "/ok", [], none, []⟩).2.1
      (by decide) (by decide)
    simpa using h

/-- Two strings differ when some prefix of their character data differs. -/
theorem strNeOfTake (n : Nat) (a b : String) (h : a.data.take n ≠ b.data.take n) :
    a ≠ b :=
  fun he => h (by rw [he])

/-- Taking an initial segment of `lit ++ p ++ suffix` that is no longer than
    `lit` only sees `lit`. -/
theorem takeDataAppend (lit p suffix : String) (n : Nat) (h : n ≤ lit.data.length) :
    (lit ++ p ++ suffix).data.take n = lit.data.take n := by
  rw [String.data_append, String.data_append, List.append_assoc,
    List.take_append_of_le_length h]

/-- C3: the request bridge accepts a path exactly when it starts with one
    `/` (and not `//`), contains no `://`, no null byte, no CR, no LF and no
    backslash; each violation produces its own error message, the six
    messages being pairwise distinct; and the HTTP method is upper-cased
    before it is checked against the allowed set and before it is forwarded
    to the host handler. -/
theorem claim3_pathValidationMethodNormalisation (p : String) :
    (validatePath p = .ok () ↔
      (strStarts p "/" = true ∧ strStarts p "//" = false ∧ strHas p "://" = false ∧
       strHasChar p (Char.ofNat 0) = false ∧ strHasChar p '\r' = false ∧
       strHasChar p '\n' = false ∧ strHasChar p '\\' = false)) ∧
    (strHas p "://" = true →
      validatePath p = .error ("Invalid path: must not contain \"://\" — got \"" ++ p ++ "\"")) ∧
    (strHas p "://" = false → strStarts p "/" = false →
      validatePath p = .error ("Invalid path: must start with \"/\" — got \"" ++ p ++ "\"")) ∧
    (strHas p "://" = false → strStarts p "/" = true → strStarts p "//" = true →
      validatePath p = .error ("Invalid path: must not start with \"//\" — got \"" ++ p ++ "\"")) ∧
    (strHas p "://" = false → strStarts p "/" = true → strStarts p "//" = false →
      strHasChar p (Char.ofNat 0) = true →
      validatePath p = .error "Invalid path: must not contain null bytes") ∧
    (strHas p "://" = false → strStarts p "/" = true → strStarts p "//" = false →
      strHasChar p (Char.ofNat 0) = false →
      (strHasChar p '\r' = true ∨ strHasChar p '\n' = true) →
      validatePath p = .error "Invalid path: must not contain CR/LF characters") ∧
    (strHas p "://" = false → strStarts p "/" = true → strStarts p "//" = false →
      strHasChar p (Char.ofNat 0) = false → strHasChar p '\r' = false →
      strHasChar p '\n' = false → strHasChar p '\\' = true →
      validatePath p = .error "Invalid path: must not contain backslashes") ∧
    List.Pairwise (fun a b => a ≠ b)
      ["Invalid path: must not contain \"://\" — got \"" ++ p ++ "\"",
       "Invalid path: must start with \"/\" — got \"" ++ p ++ "\"",
       "Invalid path: must not start with \"//\" — got \"" ++ p ++ "\"",
       "Invalid path: must not contain null bytes",
       "Invalid path: must not contain CR/LF characters",
       "Invalid path: must not contain backslashes"] ∧
    (∀ (handler : String → ReqInit → HostResp) (baseUrl : String)
       (maxRequests maxB count : Nat) (allowed : Option (List String))
       (req : SandboxReq), count < maxRequests →
      (allowedMethods.contains (strUp req.method) = false →
        (bridgeCall handler baseUrl maxRequests maxB allowed count req).2 =
          .error ("Invalid HTTP method: \"" ++ req.method ++ "\". Allowed: " ++
            String.intercalate ", " allowedMethods)) ∧
      (allowedMethods.contains (strUp req.method) = true →
        validatePath req.path = .ok () →
        (((handler (composeUrl baseUrl req.path req.query)
            (mkInit (strUp req.method) (filterHeaders req.headers allowed)
              req.body)).chunks.map List.length).sum ≤ maxB) →
        (bridgeCall handler baseUrl maxRequests maxB allowed count req).2 =
          .ok { status := (handler (composeUrl baseUrl req.path req.query)
                  (mkInit (strUp req.method) (filterHeaders req.headers allowed)
                    req.body)).status,
                headers := (handler (composeUrl baseUrl req.path req.query)
                  (mkInit (strUp req.method) (filterHeaders req.headers allowed)
                    req.body)).headers,
                body := (handler (composeUrl baseUrl req.path req.query)
                  (mkInit (strUp req.method) (filterHeaders req.headers allowed)
                    req.body)).chunks.flatten })) := by
  refine ⟨?_, ?_, ?_, ?_, ?_, ?_, ?_, ?_, ?_⟩
  · constructor
    · intro h
      simp only [validatePath] at h
      split_ifs at h with h1 h2 h3 h4 h5 h6
      simp_all
    · rintro ⟨c1, c2, c3, c4, c5, c6, c7⟩
      simp [validatePath, c1, c2, c3, c4, c5, c6, c7]
  · intro h1; simp [validatePath, h1]
  · intro h1 h2; simp [validatePath, h1, h2]
  · intro h1 h2 h3; simp [validatePath, h1, h2, h3]
  · intro h1 h2 h3 h4; simp [validatePath, h1, h2, h3, h4]
  · intro h1 h2 h3 h4 h5
    rcases h5 with h5 | h5 <;> simp [validatePath, h1, h2, h3, h4, h5]
  · intro h1 h2 h3 h4 h5 h6 h7; simp [validatePath, h1, h2, h3, h4, h5, h6, h7]
  · refine List.Pairwise.cons ?_ (List.Pairwise.cons ?_ (List.Pairwise.cons ?_
      (List.Pairwise.cons ?_ (List.Pairwise.cons ?_ (List.Pairwise.cons
        (by simp) List.Pairwise.nil))))) <;>
    · intro x hx
      simp only [List.mem_cons, List.not_mem_nil, or_false] at hx
      rcases hx with rfl | rfl | rfl | rfl | rfl | rfl <;>
      · apply strNeOfTake 32
        repeat rw [takeDataAppend _ _ _ _ (by decide)]
        decide
  · intro handler baseUrl maxRequests maxB count allowed req hc
    have h1 : ¬ maxRequests < count + 1 := by omega
    constructor
    · intro hm
      have hmem : strUp req.method ∉ allowedMethods := by simpa using hm
      simp [bridgeCall, h1, hmem]
    · intro hm hv hsz
      have hmem : strUp req.method ∈ allowedMethods := by simpa using hm
      have hrd := readChunks_ok maxB
        (handler (composeUrl baseUrl req.path req.query)
          (mkInit (strUp req.method) (filterHeaders req.headers allowed)
            req.body)).chunks 0 (by omega)
      simp [bridgeCall, h1, hmem, hv, readResponseWithLimit, hrd]

/-- C3 witness: the path `/ok` is accepted, `https://evil/` is rejected with
    the `://` message, `//evil` with the `//` message, and a lower-case
    method is upper-cased before the allowed-set check, so `get` passes the
    method check and reaches path validation. -/
theorem claim3_pathValidationMethodNormalisation_witness :
    validatePath "/ok" = .ok () ∧
    validatePath "https://evil/" =
      .error "Invalid path: must not contain \"://\" — got \"https://evil/\"" ∧
    validatePath "//evil" =
      .error "Invalid path: must not start with \"//\" — got \"//evil\"" ∧
    (bridgeCall (fun _ _ => ⟨200, [], []⟩) "http://localhost" 5 1000 none 0
      ⟨"get", "bad", [], none, []⟩).2 =
      .error "Invalid path: must start with \"/\" — got \"bad\"" := by
  refine ⟨?_, ?_, ?_, ?_⟩
  · exact (claim3_pathValidationMethodNormalisation "/ok").1.mpr (by decide)
  · have h := (claim3_pathValidationMethodNormalisation "https://evil/").2.1 (by decide)
    simpa using h
  · have h := (claim3_pathValidationMethodNormalisation "//evil").2.2.2.1
      (by decide) (by decide) (by decide)
    simpa using h
  · have h2 := ((claim3_pathValidationMethodNormalisation "bad").2.2.2.2.2.2.2.2
      (fun _ _ => ⟨200, [], []⟩) "http://localhost" 5 1000 0 none
      ⟨"get", "bad", [], none, []⟩ (by decide)).1
    have hm : allowedMethods.contains (strUp "get") = true := by decide
    have hv : validatePath "bad" =
        .error "Invalid path: must start with \"/\" — got \"bad\"" := by
      have h := (claim3_pathValidationMethodNormalisation "bad").2.2.1
        (by decide) (by decide)
      simpa using h
    have h1 : ¬ (5 : Nat) < 0 + 1 := by omega
    have hmem : strUp "get" ∈ allowedMethods := by simpa using hm
    simp [bridgeCall, h1, hmem, hv]

/-- C1: evaluation of the orchestrator model at the failing input.  The
    source creates the request bridge once in the `CodeMode` constructor and
    reuses it for every `execute`, so with `maxRequests = 2` a first
    `execute` that makes two requests succeeds, but the very first request of
    the next `execute` on the same instance fails with the request-limit
    error — the counter does not restart at zero, contradicting the claim,
    the specification and the repository's own tests. -/
theorem claim1_counterPersistsAcrossExecutes :
    (cmExecute (fun _ _ => ⟨200, [], []⟩) "http://localhost" 2 1000 none ⟨0⟩
        [⟨"GET", "/a", [], none, []⟩, ⟨"GET", "/b", [], none, []⟩]).2 = .ok () ∧
    (cmExecute (fun _ _ => ⟨200, [], []⟩) "http://localhost" 2 1000 none ⟨0⟩
        [⟨"GET", "/a", [], none, []⟩, ⟨"GET", "/b", [], none, []⟩]).1.count = 2 ∧
    (cmExecute (fun _ _ => ⟨200, [], []⟩) "http://localhost" 2 1000 none
        (cmExecute (fun _ _ => ⟨200, [], []⟩) "http://localhost" 2 1000 none ⟨0⟩
          [⟨"GET", "/a", [], none, []⟩, ⟨"GET", "/b", [], none, []⟩]).1
        [⟨"GET", "/c", [], none, []⟩]).2 =
      .error "Request limit exceeded: max 2 requests per execution" := by
  refine ⟨by rfl, by rfl, by rfl⟩

/-! ## Lemmas about tag counting and sorting (`extractTags`) -/

/-- First-match lookup into the count map. -/
def lookupN : List (String × Nat) → String → Option Nat
  | [], _ => none
  | (k, n) :: rest, t => if k = t then some n else lookupN rest t

theorem lookupN_bump_self (t : String) :
    ∀ acc, lookupN (bump acc t) t = some ((lookupN acc t).getD 0 + 1) := by
  intro acc
  induction acc with
  | nil => simp [bump, lookupN]
  | cons kv rest ih =>
      obtain ⟨k, n⟩ := kv
      by_cases h : k = t
      · simp [bump, lookupN, h]
      · simp only [bump, lookupN, if_neg h, beq_iff_eq, ih]

theorem lookupN_bump_other (t s : String) (hst : s ≠ t) :
    ∀ acc, lookupN (bump acc t) s = lookupN acc s := by
  intro acc
  have hts : ¬ t = s := Ne.symm hst
  induction acc with
  | nil => simp [bump, lookupN, hts]
  | cons kv rest ih =>
      obtain ⟨k, n⟩ := kv
      by_cases h : k = t
      · subst h
        simp [bump, lookupN, hts]
      · simp [bump, lookupN, h, ih]

theorem lookupN_foldl_bump (s : String) :
    ∀ (l : List String) (acc : List (String × Nat)),
      lookupN (l.foldl bump acc) s =
        if s ∈ l ∨ (lookupN acc s).isSome then
          some ((lookupN acc s).getD 0 + l.count s)
        else none := by
  intro l
  induction l with
  | nil =>
      intro acc
      cases h : lookupN acc s <;> simp [h]
  | cons t rest ih =>
      intro acc
      rw [List.foldl_cons, ih (bump acc t)]
      by_cases hst : s = t
      · subst hst
        rw [lookupN_bump_self s acc]
        simp [List.count_cons]
        omega
      · rw [lookupN_bump_other t s hst acc]
        have hts : ¬ t = s := Ne.symm hst
        simp [List.count_cons, hst, hts]

theorem map_fst_bump (t : String) :
    ∀ acc, (bump acc t).map Prod.fst =
      if t ∈ acc.map Prod.fst then acc.map Prod.fst else acc.map Prod.fst ++ [t] := by
  intro acc
  induction acc with
  | nil => simp [bump]
  | cons kv rest ih =>
      obtain ⟨k, n⟩ := kv
      by_cases h : k = t
      · subst h
        simp [bump]
      · have hkt : ¬ t = k := fun hh => h hh.symm
        simp only [bump, beq_iff_eq, if_neg h, List.map_cons, ih, List.mem_cons]
        by_cases hm : t ∈ rest.map Prod.fst
        · simp [hm, hkt]
        · simp [hm, hkt]

theorem nodup_fst_foldl_bump :
    ∀ (l : List String) (acc : List (String × Nat)),
      (acc.map Prod.fst).Nodup → ((l.foldl bump acc).map Prod.fst).Nodup := by
  intro l
  induction l with
  | nil => intro acc h; simpa using h
  | cons t rest ih =>
      intro acc h
      rw [List.foldl_cons]
      apply ih
      rw [map_fst_bump t acc]
      by_cases hm : t ∈ acc.map Prod.fst
      · simpa [hm] using h
      · simp [hm, List.nodup_append, h]

theorem mem_iff_lookupN {l : List (String × Nat)} (h : (l.map Prod.fst).Nodup)
    (s : String) (n : Nat) : (s, n) ∈ l ↔ lookupN l s = some n := by
  induction l with
  | nil => simp [lookupN]
  | cons kv rest ih =>
      obtain ⟨k, m⟩ := kv
      simp only [List.map_cons, List.nodup_cons] at h
      by_cases hk : k = s
      · subst hk
        constructor
        · intro h2
          rcases List.mem_cons.mp h2 with he | hm
          · rw [Prod.mk.injEq] at he
            simp [lookupN, he.2]
          · exact absurd (List.mem_map_of_mem Prod.fst hm) h.1
        · intro h2
          simp only [lookupN, if_true, ite_true, Option.some_inj] at h2
          rw [h2]
          exact List.mem_cons_self _ _
      · simp only [lookupN, if_neg hk, List.mem_cons, ih h.2]
        constructor
        · rintro (he | hm)
          · rw [Prod.mk.injEq] at he
            exact absurd he.1.symm hk
          · exact hm
        · exact Or.inr

theorem insertDesc_perm (x : String × Nat) :
    ∀ l, List.Perm (insertDesc x l) (x :: l) := by
  intro l
  induction l with
  | nil => simp [insertDesc]
  | cons y rest ih =>
      by_cases h : y.2 ≤ x.2
      · simp [insertDesc, h]
      · simp only [insertDesc, if_neg h]
        exact (ih.cons y).trans (List.Perm.swap x y rest)

theorem sortDesc_perm : ∀ l, List.Perm (sortDesc l) l := by
  intro l
  induction l with
  | nil => simp [sortDesc]
  | cons x rest ih =>
      exact (insertDesc_perm x (sortDesc rest)).trans (ih.cons x)

theorem insertDesc_sorted (x : String × Nat) :
    ∀ l, l.Pairwise (fun a b => b.2 ≤ a.2) →
      (insertDesc x l).Pairwise (fun a b => b.2 ≤ a.2) := by
  intro l
  induction l with
  | nil => intro _; simp [insertDesc]
  | cons y rest ih =>
      intro h
      rw [List.pairwise_cons] at h
      by_cases hc : y.2 ≤ x.2
      · simp only [insertDesc, if_pos hc]
        refine List.Pairwise.cons ?_ (List.Pairwise.cons h.1 h.2)
        intro z hz
        rcases List.mem_cons.mp hz with rfl | hz
        · exact hc
        · exact le_trans (h.1 z hz) hc
      · simp only [insertDesc, if_neg hc]
        refine List.Pairwise.cons ?_ (ih h.2)
        intro z hz
        rcases List.mem_cons.mp ((insertDesc_perm x rest).mem_iff.mp hz) with rfl | hz2
        · omega
        · exact h.1 z hz2

theorem sortDesc_sorted : ∀ l, (sortDesc l).Pairwise (fun a b => b.2 ≤ a.2) := by
  intro l
  induction l with
  | nil => simp [sortDesc]
  | cons x rest ih => exact insertDesc_sorted x (sortDesc rest) ih

/-- The example document of scenario S1: paths `/a` (get tags
    `[alpha, beta]`, post tags `[alpha]`), `/b` (get tags `[beta]`),
    `/c` (delete tags `[gamma]`). -/
def tagsExample : JVal :=
  .obj [("paths", .obj [
    ("/a", .obj [("get", .obj [("tags", .arr [.str "alpha", .str "beta"])]),
                 ("post", .obj [("tags", .arr [.str "alpha"])])]),
    ("/b", .obj [("get", .obj [("tags", .arr [.str "beta"])])]),
    ("/c", .obj [("delete", .obj [("tags", .arr [.str "gamma"])])])])]

/-- C9: `extractTags` returns each tag occurring in the document exactly once,
    ordered by non-increasing occurrence count, and on the S1 example it
    returns `["alpha", "beta", "gamma"]` with `alpha` before `gamma`. -/
theorem claim9_extractTagsFrequencySort (spec : JVal) :
    (extractTags spec).Nodup ∧
    (∀ t, t ∈ extractTags spec ↔ t ∈ allTags spec) ∧
    (extractTags spec).Pairwise
      (fun a b => (allTags spec).count b ≤ (allTags spec).count a) ∧
    extractTags tagsExample = ["alpha", "beta", "gamma"] := by
  have hnodupC : ((countTags spec).map Prod.fst).Nodup :=
    nodup_fst_foldl_bump (allTags spec) [] (by simp)
  have hperm : List.Perm (sortDesc (countTags spec)) (countTags spec) :=
    sortDesc_perm (countTags spec)
  have hlook : ∀ s, lookupN (countTags spec) s =
      if s ∈ allTags spec then some ((allTags spec).count s) else none := by
    intro s
    rw [countTags, lookupN_foldl_bump s (allTags spec) []]
    simp [lookupN]
  have hval : ∀ p : String × Nat, p ∈ countTags spec →
      p.1 ∈ allTags spec ∧ p.2 = (allTags spec).count p.1 := by
    rintro ⟨s, n⟩ hm
    have := (mem_iff_lookupN hnodupC s n).mp hm
    rw [hlook s] at this
    by_cases hs : s ∈ allTags spec
    · rw [if_pos hs] at this
      exact ⟨hs, (Option.some_inj.mp this).symm⟩
    · rw [if_neg hs] at this
      exact absurd this (by simp)
  refine ⟨?_, ?_, ?_, by decide⟩
  · rw [extractTags]
    exact ((hperm.map Prod.fst).nodup_iff).mpr hnodupC
  · intro t
    rw [extractTags, List.mem_map]
    constructor
    · rintro ⟨⟨s, n⟩, hm, rfl⟩
      exact (hval _ (hperm.mem_iff.mp hm)).1
    · intro ht
      have : lookupN (countTags spec) t = some ((allTags spec).count t) := by
        rw [hlook t, if_pos ht]
      exact ⟨(t, (allTags spec).count t),
        hperm.mem_iff.mpr ((mem_iff_lookupN hnodupC t _).mpr this), rfl⟩
  · rw [extractTags, List.pairwise_map]
    refine (sortDesc_sorted (countTags spec)).imp_of_mem ?_
    intro a b ha hb hr
    have hva := hval a (hperm.mem_iff.mp ha)
    have hvb := hval b (hperm.mem_iff.mp hb)
    omega

/-- C9 witness: on the S1 example the unique-membership equivalence holds for
    `alpha`, which occurs in the document's tags. -/
theorem claim9_extractTagsFrequencySort_witness :
    "alpha" ∈ extractTags tagsExample ∧ "alpha" ∈ allTags tagsExample := by
  have h := (claim9_extractTagsFrequencySort tagsExample).2.1 "alpha"
  have hm : "alpha" ∈ allTags tagsExample := by decide
  exact ⟨h.mpr hm, hm⟩

/-! ## Lemmas about reference resolution (`resolveRefs`) -/

theorem mapFind_mapSet_self (k : String) (v : JVal) :
    ∀ c, mapFind (mapSet c k v) k = some v := by
  intro c
  induction c with
  | nil => simp [mapSet, mapFind]
  | cons kv rest ih =>
      obtain ⟨k2, w⟩ := kv
      by_cases h : k2 = k
      · simp [mapSet, mapFind, h]
      · simp [mapSet, mapFind, h, ih]

theorem mapFind_mem {c : Cache} {k : String} {v : JVal}
    (h : mapFind c k = some v) : (k, v) ∈ c := by
  induction c with
  | nil => simp [mapFind] at h
  | cons kv rest ih =>
      obtain ⟨k2, w⟩ := kv
      by_cases h2 : k2 = k
      · subst h2
        simp only [mapFind, if_pos rfl, beq_self_eq_true, if_true,
          Option.some_inj] at h
        rw [h]
        exact List.mem_cons_self _ _
      · simp only [mapFind, beq_iff_eq, if_neg h2] at h
        exact List.mem_cons_of_mem _ (ih h)

theorem mapSet_forall {P : JVal → Prop} {c : Cache} {k : String} {v : JVal}
    (hc : ∀ kv ∈ c, P kv.2) (hv : P v) : ∀ kv ∈ mapSet c k v, P kv.2 := by
  induction c with
  | nil =>
      intro kv hkv
      simp only [mapSet, List.mem_singleton] at hkv
      rw [hkv]
      exact hv
  | cons kv2 rest ih =>
      obtain ⟨k2, w⟩ := kv2
      intro kv hkv
      by_cases h : k2 = k
      · simp only [mapSet, beq_iff_eq, if_pos h, List.mem_cons] at hkv
        rcases hkv with rfl | hkv
        · exact hv
        · exact hc kv (List.mem_cons_of_mem _ hkv)
      · simp only [mapSet, beq_iff_eq, if_neg h, List.mem_cons] at hkv
        rcases hkv with rfl | hkv
        · exact hc (k2, w) (List.mem_cons_self _ _)
        · exact ih (fun kv2 hm => hc kv2 (List.mem_cons_of_mem _ hm)) kv hkv

/-- A `$ref` already present in the ancestor chain resolves to exactly the
    `{ $circular: ref }` marker, leaving the cache untouched. -/
theorem resolveRefs_circular {kvs : List (String × JVal)} {r : String}
    (root : JVal) (seen : List String) (md : Nat) (cache : Cache)
    (hl : jvLookup kvs "$ref" = some (.str r)) (hs : r ∈ seen) :
    resolveRefs (.obj kvs) root seen md cache =
      (.obj [("$circular", .str r)], cache) := by
  rw [resolveRefs, hl]
  simp [hs]

/-- A `$ref` with a dangerous pointer segment resolves to exactly the
    `{ $ref, $error }` marker without traversing further, leaving the cache
    untouched. -/
theorem resolveRefs_unsafeMarker {kvs : List (String × JVal)} {r : String}
    (root : JVal) (seen : List String) (md : Nat) (cache : Cache)
    (hl : jvLookup kvs "$ref" = some (.str r)) (hs : r ∉ seen)
    (hd : seen.length < md) (hc : mapFind cache r = none)
    (hdg : (refParts r).any dangerousKey = true) :
    resolveRefs (.obj kvs) root seen md cache =
      (.obj [("$ref", .str r), ("$error", .str "unsafe ref path")], cache) := by
  rw [resolveRefs, hl]
  simp [hs, Nat.not_le.mpr hd, hc, hdg]

/-- An uncached, unseen, safe `$ref` resolves its walked-to target with the
    ancestor chain extended by the ref, and caches the result. -/
theorem resolveRefs_refStep {kvs : List (String × JVal)} {r : String}
    (root : JVal) (seen : List String) (md : Nat) (cache : Cache)
    (hl : jvLookup kvs "$ref" = some (.str r)) (hs : r ∉ seen)
    (hd : seen.length < md) (hc : mapFind cache r = none)
    (hdg : (refParts r).any dangerousKey = false) :
    resolveRefs (.obj kvs) root seen md cache =
      ((resolveRefs (walkParts root (refParts r)) root (seen ++ [r]) md cache).1,
       mapSet (resolveRefs (walkParts root (refParts r)) root (seen ++ [r]) md cache).2
         r (resolveRefs (walkParts root (refParts r)) root (seen ++ [r]) md cache).1) := by
  rw [resolveRefs, hl]
  simp [hs, Nat.not_le.mpr hd, hc, hdg]

/-- A cached `$ref` resolves to the cached value with the cache unchanged. -/
theorem resolveRefs_cached {kvs : List (String × JVal)} {r : String} {v : JVal}
    (root : JVal) (seen : List String) (md : Nat) (cache : Cache)
    (hl : jvLookup kvs "$ref" = some (.str r)) (hs : r ∉ seen)
    (hd : seen.length < md) (hc : mapFind cache r = some v) :
    resolveRefs (.obj kvs) root seen md cache = (v, cache) := by
  rw [resolveRefs, hl]
  simp [hs, Nat.not_le.mpr hd, hc]

/-- An object without a string-valued `$ref` key is traversed entry-wise. -/
theorem resolveRefs_plain {kvs : List (String × JVal)}
    (root : JVal) (seen : List String) (md : Nat) (cache : Cache)
    (hl : jvLookup kvs "$ref" = none) :
    resolveRefs (.obj kvs) root seen md cache =
      ((.obj (resolveEntries kvs root seen md cache).1),
        (resolveEntries kvs root seen md cache).2) := by
  rw [resolveRefs, hl]

/-- Resolving the same single-`$ref` object again, starting from the cache
    state its first resolution produced, returns the identical value: the
    memo makes the second of two identical siblings share the first's
    result. -/
theorem resolveRefs_secondSibling (r : String) (root : JVal)
    (seen : List String) (md : Nat) (hs : r ∉ seen) (hd : seen.length < md) :
    resolveRefs (.obj [("$ref", .str r)]) root seen md
        (resolveRefs (.obj [("$ref", .str r)]) root seen md []).2 =
      ((resolveRefs (.obj [("$ref", .str r)]) root seen md []).1,
       (resolveRefs (.obj [("$ref", .str r)]) root seen md []).2) := by
  have hl : jvLookup [("$ref", JVal.str r)] "$ref" = some (.str r) := by
    simp [jvLookup]
  by_cases hdg : (refParts r).any dangerousKey = true
  · rw [resolveRefs_unsafeMarker root seen md [] hl hs hd (by simp [mapFind]) hdg]
    rw [resolveRefs_unsafeMarker root seen md [] hl hs hd (by simp [mapFind]) hdg]
  · rw [resolveRefs_refStep root seen md [] hl hs hd (by simp [mapFind])
      (by simpa using hdg)]
    rw [resolveRefs_cached root seen md _ hl hs hd (mapFind_mapSet_self r _ _)]

/-- An object without a string-valued `$ref` key is traversed entry-wise
    (covering `$ref` keys holding non-string values). -/
theorem resolveRefs_plainAny {kvs : List (String × JVal)}
    (root : JVal) (seen : List String) (md : Nat) (cache : Cache)
    (hl : ∀ r, jvLookup kvs "$ref" ≠ some (.str r)) :
    resolveRefs (.obj kvs) root seen md cache =
      ((.obj (resolveEntries kvs root seen md cache).1),
        (resolveEntries kvs root seen md cache).2) := by
  rw [resolveRefs]
  cases h2 : jvLookup kvs "$ref" with
  | none => rfl
  | some v =>
      cases v with
      | str s => exact absurd h2 (hl s)
      | num n => rfl
      | bool b => rfl
      | null => rfl
      | undef => rfl
      | arr xs => rfl
      | obj kvs2 => rfl

mutual

/-- Deep absence of dangerous own keys in a value. -/
def ndVal : JVal → Bool
  | .arr xs => ndList xs
  | .obj kvs => ndEntries kvs
  | _ => true

/-- Deep absence of dangerous own keys in every element. -/
def ndList : List JVal → Bool
  | [] => true
  | x :: rest => ndVal x && ndList rest

/-- Deep absence of dangerous own keys in every entry: no key is dangerous
    and every value is clean. -/
def ndEntries : List (String × JVal) → Bool
  | [] => true
  | (k, v) :: rest => !dangerousKey k && ndVal v && ndEntries rest

end

/-- Every value stored in the cache is deeply free of dangerous keys. -/
def cacheND (c : Cache) : Prop := ∀ kv ∈ c, ndVal kv.2 = true

theorem ndPres : ∀ (v root : JVal) (seen : List String) (md : Nat) (cache : Cache),
    cacheND cache →
    ndVal (resolveRefs v root seen md cache).1 = true ∧
    cacheND (resolveRefs v root seen md cache).2 := by
  intro v root seen md cache
  refine resolveRefs.induct
    (fun v root seen md cache => cacheND cache →
      ndVal (resolveRefs v root seen md cache).1 = true ∧
      cacheND (resolveRefs v root seen md cache).2)
    (fun xs root seen md cache => cacheND cache →
      ndList (resolveList xs root seen md cache).1 = true ∧
      cacheND (resolveList xs root seen md cache).2)
    (fun kvs root seen md cache => cacheND cache →
      ndEntries (resolveEntries kvs root seen md cache).1 = true ∧
      cacheND (resolveEntries kvs root seen md cache).2)
    ?_ ?_ ?_ ?_ ?_ ?_ ?_ ?_ ?_ ?_ ?_ ?_ ?_ v root seen md cache
  · intro root seen md cache kvs ref hl hs hcnd
    rw [resolveRefs_circular root seen md cache hl hs]
    refine ⟨by simp [ndVal, ndEntries, dangerousKey], hcnd⟩
  · intro root seen md cache kvs ref hl hs hdep hcnd
    rw [resolveRefs, hl]
    simp only [if_neg hs, if_pos hdep]
    refine ⟨by simp [ndVal, ndEntries, dangerousKey], hcnd⟩
  · intro root seen md cache kvs ref hl hs hdep v2 hcache hcnd
    rw [resolveRefs_cached root seen md cache hl hs (by omega) hcache]
    exact ⟨hcnd _ (mapFind_mem hcache), hcnd⟩
  · intro root seen md cache kvs ref hl hs hdep hcache hdg hcnd
    rw [resolveRefs_unsafeMarker root seen md cache hl hs (by omega) hcache hdg]
    refine ⟨by simp [ndVal, ndEntries, dangerousKey], hcnd⟩
  · intro root seen md cache kvs ref hl hs hdep hcache hdg target ih hcnd
    rw [resolveRefs_refStep root seen md cache hl hs (by omega) hcache
      (by simpa using hdg)]
    obtain ⟨h1, h2⟩ := ih hcnd
    have h1b : ndVal (resolveRefs (walkParts root (refParts ref)) root
        (seen ++ [ref]) md cache).1 = true := h1
    have h2b : ∀ kv ∈ (resolveRefs (walkParts root (refParts ref)) root
        (seen ++ [ref]) md cache).2, ndVal kv.2 = true := h2
    refine ⟨h1b, ?_⟩
    intro kv hm
    exact @mapSet_forall (fun x => ndVal x = true) _ ref _ h2b h1b kv hm
  · intro root seen md cache kvs hnref ih hcnd
    rw [resolveRefs_plainAny root seen md cache
      (fun r h => hnref r h)]
    obtain ⟨h1, h2⟩ := ih hcnd
    exact ⟨by simpa [ndVal] using h1, h2⟩
  · intro root seen md cache xs ih hcnd
    rw [resolveRefs]
    obtain ⟨h1, h2⟩ := ih hcnd
    exact ⟨by simpa [ndVal] using h1, h2⟩
  · intro v root seen md cache hno hna hcnd
    have hv : resolveRefs v root seen md cache = (v, cache) := by
      cases v with
      | obj kvs => exact absurd rfl (hno kvs)
      | arr xs => exact absurd rfl (hna xs)
      | str s => simp [resolveRefs]
      | num n => simp [resolveRefs]
      | bool b => simp [resolveRefs]
      | null => simp [resolveRefs]
      | undef => simp [resolveRefs]
    rw [hv]
    refine ⟨?_, hcnd⟩
    cases v with
    | obj kvs => exact absurd rfl (hno kvs)
    | arr xs => exact absurd rfl (hna xs)
    | str s => simp [ndVal]
    | num n => simp [ndVal]
    | bool b => simp [ndVal]
    | null => simp [ndVal]
    | undef => simp [ndVal]
  · intro root seen md cache hcnd
    rw [resolveList]
    exact ⟨by simp [ndList], hcnd⟩
  · intro root seen md cache x rest rc ih1 ih2 hcnd
    rw [resolveList]
    obtain ⟨h1, h2⟩ := ih1 hcnd
    obtain ⟨h3, h4⟩ := ih2 h2
    exact ⟨by simp [ndList, h1, h3], h4⟩
  · intro root seen md cache hcnd
    rw [resolveEntries]
    exact ⟨by simp [ndEntries], hcnd⟩
  · intro root seen md cache k v rest hdk ih hcnd
    rw [resolveEntries, if_pos hdk]
    exact ih hcnd
  · intro root seen md cache k v rest hdk rc ih1 ih2 hcnd
    rw [resolveEntries, if_neg hdk]
    obtain ⟨h1, h2⟩ := ih1 hcnd
    obtain ⟨h3, h4⟩ := ih2 h2
    refine ⟨?_, h4⟩
    simp only [ndEntries, h1, h3, Bool.and_true, Bool.true_and]
    simpa using hdk

/-- Keys surviving a plain-object traversal are exactly the non-dangerous
    input keys, in order. -/
theorem resolveEntries_keys :
    ∀ (kvs : List (String × JVal)) (root : JVal) (seen : List String)
      (md : Nat) (cache : Cache),
      (resolveEntries kvs root seen md cache).1.map Prod.fst =
        (kvs.filter (fun kv => !dangerousKey kv.1)).map Prod.fst := by
  intro kvs
  induction kvs with
  | nil => intro root seen md cache; rw [resolveEntries]; simp
  | cons kv rest ih =>
      intro root seen md cache
      obtain ⟨k, v⟩ := kv
      by_cases h : dangerousKey k
      · rw [resolveEntries, if_pos h]
        simp [h, ih]
      · rw [resolveEntries, if_neg h]
        simp [h, ih]

/-- C2 counterexample: for the root `{ X: { $ref: "#/X" } }` the object
    `{ a: { $ref: "#/X" }, b: { $ref: "#/X" } }` holds two identical sibling
    `$ref`s, neither in the other's ancestor chain (the chain is empty), yet
    the code replaces both with the `{ $circular: "#/X" }` marker — the
    claim's "neither is marked `$circular`" fails. -/
theorem claim2_siblingCircular_counterexample :
    (resolveRefs (.obj [("a", .obj [("$ref", .str "#/X")]),
                        ("b", .obj [("$ref", .str "#/X")])])
      (.obj [("X", .obj [("$ref", .str "#/X")])]) [] 50 []).1 =
    .obj [("a", .obj [("$circular", .str "#/X")]),
          ("b", .obj [("$circular", .str "#/X")])] := by
  simp [resolveRefs, resolveEntries, resolveList, jvLookup, mapFind, mapSet,
    refParts, walkParts, walkStep, jsGet, canonIndex, dangerousKey, removeFirst,
    splitSlash]

/-- C2 as amended: a `$ref` in its own ancestor chain yields exactly
    `{ $circular: ref }`; two identical sibling `$ref`s (with the shared
    chain not containing the ref) both receive the same value — the first
    occurrence's resolution, served to the second from the memo — so neither
    is spuriously marked `$circular` because of the other; and on the
    concrete two-sibling document with an acyclic target, both siblings are
    the fully resolved target value with no `$circular` marker. -/
theorem claim2_ancestorCircularSiblingSharing (root : JVal)
    (seen : List String) (md : Nat) (cache : Cache) :
    (∀ (kvs : List (String × JVal)) (r : String),
      jvLookup kvs "$ref" = some (.str r) → r ∈ seen →
      resolveRefs (.obj kvs) root seen md cache =
        (.obj [("$circular", .str r)], cache)) ∧
    (∀ (a b r : String), a ≠ "$ref" → b ≠ "$ref" →
      dangerousKey a = false → dangerousKey b = false →
      r ∉ seen → seen.length < md →
      (resolveRefs (.obj [(a, .obj [("$ref", .str r)]),
                          (b, .obj [("$ref", .str r)])]) root seen md []).1 =
        .obj [(a, (resolveRefs (.obj [("$ref", .str r)]) root seen md []).1),
              (b, (resolveRefs (.obj [("$ref", .str r)]) root seen md []).1)]) ∧
    ((resolveRefs (.obj [("a", .obj [("$ref", .str "#/defs/Pet")]),
                         ("b", .obj [("$ref", .str "#/defs/Pet")])])
        (.obj [("defs", .obj [("Pet", .obj [("type", .str "object")])])])
        [] 50 []).1 =
      .obj [("a", .obj [("type", .str "object")]),
            ("b", .obj [("type", .str "object")])]) := by
  refine ⟨?_, ?_, ?_⟩
  · intro kvs r hl hs
    exact resolveRefs_circular root seen md cache hl hs
  · intro a b r ha hb hda hdb hs hd
    have hl : jvLookup [(a, JVal.obj [("$ref", JVal.str r)]),
        (b, JVal.obj [("$ref", JVal.str r)])] "$ref" = none := by
      simp [jvLookup, ha, hb]
    rw [resolveRefs_plain root seen md [] hl]
    simp only [resolveEntries, hda, hdb, Bool.false_eq_true, if_false,
      resolveRefs_secondSibling r root seen md hs hd]
  · simp [resolveRefs, resolveEntries, resolveList, jvLookup, mapFind, mapSet,
      refParts, walkParts, walkStep, jsGet, canonIndex, dangerousKey, removeFirst,
      splitSlash]

/-- C2 witness: in an ancestor chain already containing `#/X`, the node
    `{ $ref: "#/X" }` resolves to exactly the circular marker. -/
theorem claim2_ancestorCircularSiblingSharing_witness :
    resolveRefs (.obj [("$ref", .str "#/X")]) (.obj []) ["#/X"] 50 [] =
      (.obj [("$circular", .str "#/X")], []) :=
  (claim2_ancestorCircularSiblingSharing (.obj []) ["#/X"] 50 []).1
    [("$ref", .str "#/X")] "#/X" (by simp [jvLookup]) (by simp)

/-- The C5 counterexample document: an operation whose `summary` is an object
    carrying a `__proto__` own key (as `JSON.parse` produces). -/
def exD5 : JVal :=
  .obj [("paths", .obj [("/p", .obj [("get", .obj [("summary",
    .obj [("__proto__", .num 1)])])])])]

/-- C5 counterexample: `processSpec` copies `summary` verbatim, so the
    dangerous own key `__proto__` survives into the processed output — the
    claim's "no value produced by spec processing" is too strong. -/
theorem claim5_verbatimFields_counterexample :
    jsGet (jsGet (jsGet (jsGet (processSpec exD5 50) "paths") "/p") "get")
        "summary" = .obj [("__proto__", .num 1)] ∧
    ndVal (processSpec exD5 50) = false := by
  constructor <;>
  simp [exD5, processSpec, processSpecPaths, buildItem, buildOp, successFilter,
    extractServerBasePath, jsEntries, truthy, nullish, httpMethods, jsGet, jvLookup,
    mapSet, mapFind, resolveRefs, resolveList, resolveEntries, refParts, walkParts,
    walkStep, canonIndex, dangerousKey, removeFirst, splitSlash, strStarts,
    fullPathOf, ndVal, ndList, ndEntries]

/-- C5 as amended, restricted to reference resolution: no value produced by
    `resolveRefs` has `__proto__`, `constructor` or `prototype` as an own key
    anywhere; plain-object traversal drops exactly the dangerous keys; and a
    `$ref` pointer with a dangerous segment is replaced by the
    `{ $ref, $error: "unsafe ref path" }` marker without traversing further.
    (`processSpec` additionally copies `summary`, `description` and `tags`
    verbatim, so dangerous keys inside those input values survive.) -/
theorem claim5_noDangerousKeysInResolution :
    (∀ (v root : JVal) (seen : List String) (md : Nat),
      ndVal (resolveRefs v root seen md []).1 = true) ∧
    (∀ (kvs : List (String × JVal)) (root : JVal) (seen : List String)
       (md : Nat) (cache : Cache),
      (resolveEntries kvs root seen md cache).1.map Prod.fst =
        (kvs.filter (fun kv => !dangerousKey kv.1)).map Prod.fst) ∧
    (∀ (kvs : List (String × JVal)) (root : JVal) (seen : List String)
       (md : Nat) (cache : Cache) (r : String),
      jvLookup kvs "$ref" = some (.str r) → r ∉ seen → seen.length < md →
      mapFind cache r = none → (refParts r).any dangerousKey = true →
      resolveRefs (.obj kvs) root seen md cache =
        (.obj [("$ref", .str r), ("$error", .str "unsafe ref path")], cache)) := by
  refine ⟨?_, resolveEntries_keys, ?_⟩
  · intro v root seen md
    exact (ndPres v root seen md []
      (fun kv hm => absurd hm (List.not_mem_nil kv))).1
  · intro kvs root seen md cache r hl hs hd hc hdg
    exact resolveRefs_unsafeMarker root seen md cache hl hs hd hc hdg

/-- C5 witness: the pointer `#/__proto__/x` has a dangerous segment, and its
    node resolves to exactly the unsafe-ref marker. -/
theorem claim5_noDangerousKeysInResolution_witness :
    resolveRefs (.obj [("$ref", .str "#/__proto__/x")]) (.obj []) [] 50 [] =
      (.obj [("$ref", .str "#/__proto__/x"),
             ("$error", .str "unsafe ref path")], []) :=
  claim5_noDangerousKeysInResolution.2.2 [("$ref", .str "#/__proto__/x")]
    (.obj []) [] 50 [] "#/__proto__/x" (by simp [jvLookup]) (by simp)
    (by decide) (by simp [mapFind]) (by decide)

/-! ## Lemmas about `processSpec` object construction -/

/-- Reading a property of an object value. -/
theorem jsGet_obj (kvs : List (String × JVal)) (k : String) :
    jsGet (.obj kvs) k = (jvLookup kvs k).getD .undef := rfl

theorem jvLookup_mem {c : List (String × JVal)} {k : String} {v : JVal}
    (h : jvLookup c k = some v) : (k, v) ∈ c := by
  induction c with
  | nil => simp [jvLookup] at h
  | cons kv rest ih =>
      obtain ⟨k2, w⟩ := kv
      by_cases h2 : k2 = k
      · subst h2
        simp only [jvLookup, if_pos rfl, beq_self_eq_true, if_true,
          Option.some_inj] at h
        rw [h]
        exact List.mem_cons_self _ _
      · simp only [jvLookup, beq_iff_eq, if_neg h2] at h
        exact List.mem_cons_of_mem _ (ih h)

theorem jvLookup_mapSet_self (k : String) (v : JVal) :
    ∀ c, jvLookup (mapSet c k v) k = some v := by
  intro c
  induction c with
  | nil => simp [mapSet, jvLookup]
  | cons kv rest ih =>
      obtain ⟨k2, w⟩ := kv
      by_cases h : k2 = k
      · simp [mapSet, jvLookup, h]
      · simp [mapSet, jvLookup, h, ih]

theorem jvLookup_mapSet_other (k x : String) (v : JVal) (h : ¬ k = x) :
    ∀ c, jvLookup (mapSet c k v) x = jvLookup c x := by
  intro c
  induction c with
  | nil => simp [mapSet, jvLookup, h]
  | cons kv rest ih =>
      obtain ⟨k2, w⟩ := kv
      by_cases h2 : k2 = k
      · subst h2
        simp [mapSet, jvLookup, h]
      · simp [mapSet, jvLookup, h2, ih]

/-- Looking up a present, truthy method in a processed path item yields the
    processed operation. -/
theorem jvLookup_buildItem (D : JVal) (md : Nat) (item : JVal) (m : String)
    (hm : m ∈ httpMethods) (ht : truthy (jsGet item m) = true) :
    jvLookup (buildItem D md item) m = some (buildOp D md (jsGet item m)) := by
  rw [httpMethods] at hm
  fin_cases hm <;>
  · simp only [buildItem, httpMethods, List.foldl_cons, List.foldl_nil, ht,
      if_true]
    split_ifs <;>
    simp [jvLookup_mapSet_self, jvLookup_mapSet_other]

/-- Entries whose full paths avoid `x` leave the lookup of `x` through the
    `processSpec` paths fold unchanged. -/
theorem pspFold_untouched (D : JVal) (md : Nat) (bp : String) :
    ∀ (es : List (String × JVal)) (acc : List (String × JVal)) (x : String),
      (∀ pv ∈ es, truthy pv.2 = true → fullPathOf bp pv.1 ≠ x) →
      jvLookup (es.foldl (fun acc pv =>
        if truthy pv.2 then
          mapSet acc (fullPathOf bp pv.1) (.obj (buildItem D md pv.2))
        else acc) acc) x = jvLookup acc x := by
  intro es
  induction es with
  | nil => intro acc x _; rfl
  | cons e rest ih =>
      intro acc x h
      rw [List.foldl_cons]
      by_cases ht : truthy e.2 = true
      · rw [if_pos ht]
        rw [ih _ x (fun pv hpv => h pv (List.mem_cons_of_mem e hpv))]
        exact jvLookup_mapSet_other _ x _ (h e (List.mem_cons_self e rest) ht) _
      · rw [if_neg ht]
        exact ih acc x (fun pv hpv => h pv (List.mem_cons_of_mem e hpv))

/-- When the truthy entries map to distinct full paths, looking up the full
    path of a truthy entry in the built paths object yields its processed
    item. -/
theorem pspFold_lookup (D : JVal) (md : Nat) (bp : String) :
    ∀ (es : List (String × JVal)) (acc : List (String × JVal))
      (p : String) (item : JVal),
      (p, item) ∈ es → truthy item = true →
      ((es.filter (fun pv => truthy pv.2)).map (fun pv => fullPathOf bp pv.1)).Nodup →
      jvLookup (es.foldl (fun acc pv =>
        if truthy pv.2 then
          mapSet acc (fullPathOf bp pv.1) (.obj (buildItem D md pv.2))
        else acc) acc) (fullPathOf bp p) = some (.obj (buildItem D md item)) := by
  intro es
  induction es with
  | nil => intro acc p item hm; simp at hm
  | cons e rest ih =>
      intro acc p item hm ht hnd
      rcases List.mem_cons.mp hm with rfl | hrest
      · rw [List.foldl_cons, if_pos ht]
        rw [pspFold_untouched D md bp rest _ _ ?notouch]
        · exact jvLookup_mapSet_self _ _ _
        case notouch =>
          intro pv hpv htv hxeq
          rw [List.filter_cons_of_pos (by simpa using ht), List.map_cons,
            List.nodup_cons] at hnd
          exact hnd.1 (hxeq ▸ List.mem_map_of_mem _ (List.mem_filter.mpr
            ⟨hpv, by simpa using htv⟩))
      · rw [List.foldl_cons]
        by_cases hte : truthy e.2 = true
        · rw [if_pos hte]
          refine ih _ p item hrest ht ?_
          rw [List.filter_cons_of_pos (by simpa using hte), List.map_cons,
            List.nodup_cons] at hnd
          exact hnd.2
        · rw [if_neg hte]
          refine ih acc p item hrest ht ?_
          rwa [List.filter_cons_of_neg (by simpa using hte)] at hnd

/-- A status key kept by the success filter is neither `$ref` nor a
    dangerous key. -/
theorem statusKeySafe (k : String)
    (h : (strStarts k "2" || k == "default") = true) :
    ¬ k = "$ref" ∧ dangerousKey k = false := by
  constructor
  · intro he
    subst he
    exact absurd h (by decide)
  · by_cases hd : dangerousKey k = true
    · exfalso
      rw [dangerousKey] at hd
      simp only [Bool.or_eq_true, beq_iff_eq] at hd
      rcases hd with (rfl | rfl) | rfl <;> exact absurd h (by decide)
    · simpa using hd

theorem jvLookup_none_of_keys {kvs : List (String × JVal)} {x : String}
    (h : ∀ kv ∈ kvs, ¬ kv.1 = x) : jvLookup kvs x = none := by
  induction kvs with
  | nil => rfl
  | cons kv rest ih =>
      obtain ⟨k, v⟩ := kv
      rw [jvLookup, if_neg (by simpa using h (k, v) (List.mem_cons_self _ _))]
      exact ih (fun kv2 hm => h kv2 (List.mem_cons_of_mem _ hm))

theorem successFilter_keyProp {r : JVal} :
    ∀ kv ∈ successFilter r, (strStarts kv.1 "2" || kv.1 == "default") = true := by
  intro kv hm
  rw [successFilter] at hm
  by_cases ht : truthy r = true
  · rw [if_pos ht] at hm
    exact (List.mem_filter.mp hm).2
  · rw [if_neg ht] at hm
    exact absurd hm (List.not_mem_nil kv)

/-- The C6 counterexample document: one operation with a `200` and a `404`
    response. -/
def exD6 : JVal :=
  .obj [("paths", .obj [("/p", .obj [("get", .obj [("responses",
    .obj [("200", .str "ok"), ("404", .str "no")])])])])]

/-- C6 counterexample: `processSpec` keeps only the `2xx`/`default` status
    keys when any is present — the input status key `404` is absent from the
    processed responses, refuting "every status key of the input responses
    mapping is present in the output". -/
theorem claim6_responsesFiltered_counterexample :
    jsGet (jsGet (jsGet (jsGet (processSpec exD6 50) "paths") "/p") "get")
        "responses" = .obj [("200", .str "ok")] ∧
    jvLookup [("200", JVal.str "ok")] "404" = none ∧
    jvLookup [("200", JVal.str "ok"), ("404", JVal.str "no")] "404" =
      some (.str "no") := by
  refine ⟨?_, by simp [jvLookup], by simp [jvLookup]⟩
  simp [exD6, processSpec, processSpecPaths, buildItem, buildOp, successFilter,
    extractServerBasePath, jsEntries, truthy, nullish, httpMethods, jsGet, jvLookup,
    mapSet, mapFind, resolveRefs, resolveList, resolveEntries, refParts, walkParts,
    walkStep, canonIndex, dangerousKey, removeFirst, splitSlash, strStarts,
    fullPathOf]

/-- C6 as amended: the processed output is `{ paths }`; under distinct full
    paths, each truthy path item is found under its base-path-prefixed key;
    each present truthy method maps to the processed operation, which carries
    exactly `summary`, `description`, `tags` copied verbatim and
    `parameters`, `requestBody`, `responses` resolved through `resolveRefs`;
    the responses input is the `2xx`/`default` subset when that subset is
    non-empty — and then exactly its status keys survive into the output —
    otherwise the full responses mapping. -/
theorem claim6_processedOperationShape (D : JVal) (md : Nat) :
    (processSpec D md = .obj [("paths", .obj (processSpecPaths D md
      (extractServerBasePath D)
      (if nullish (jsGet D "paths") then .obj [] else jsGet D "paths")))]) ∧
    (∀ (rawPaths : JVal) (bp : String) (p : String) (item : JVal),
      (p, item) ∈ jsEntries rawPaths → truthy item = true →
      (((jsEntries rawPaths).filter (fun pv => truthy pv.2)).map
        (fun pv => fullPathOf bp pv.1)).Nodup →
      jvLookup (processSpecPaths D md bp rawPaths) (fullPathOf bp p) =
        some (.obj (buildItem D md item))) ∧
    (∀ (item : JVal) (m : String), m ∈ httpMethods →
      truthy (jsGet item m) = true →
      jvLookup (buildItem D md item) m = some (buildOp D md (jsGet item m))) ∧
    (∀ op : JVal,
      jsGet (buildOp D md op) "summary" = jsGet op "summary" ∧
      jsGet (buildOp D md op) "description" = jsGet op "description" ∧
      jsGet (buildOp D md op) "tags" = jsGet op "tags" ∧
      jsGet (buildOp D md op) "parameters" =
        (resolveRefs (jsGet op "parameters") D [] md []).1 ∧
      jsGet (buildOp D md op) "requestBody" =
        (resolveRefs (jsGet op "requestBody") D [] md []).1 ∧
      jsGet (buildOp D md op) "responses" =
        (resolveRefs (if 0 < (successFilter (jsGet op "responses")).length
          then .obj (successFilter (jsGet op "responses"))
          else jsGet op "responses") D [] md []).1) ∧
    (∀ op : JVal, 0 < (successFilter (jsGet op "responses")).length →
      ∃ es : List (String × JVal),
        jsGet (buildOp D md op) "responses" = .obj es ∧
        es.map Prod.fst = (successFilter (jsGet op "responses")).map Prod.fst) := by
  refine ⟨rfl, ?_, ?_, ?_, ?_⟩
  · intro rawPaths bp p item hm ht hnd
    exact pspFold_lookup D md bp (jsEntries rawPaths) [] p item hm ht hnd
  · intro item m hm ht
    exact jvLookup_buildItem D md item m hm ht
  · intro op
    refine ⟨?_, ?_, ?_, ?_, ?_, ?_⟩ <;> simp [buildOp, jsGet_obj, jvLookup]
  · intro op hsf
    have hresp : jsGet (buildOp D md op) "responses" =
        (resolveRefs (.obj (successFilter (jsGet op "responses"))) D [] md []).1 := by
      rw [buildOp, jsGet_obj]
      simp only [jvLookup]
      rw [if_pos hsf]
      simp
    have hnoref : ∀ r, jvLookup (successFilter (jsGet op "responses")) "$ref" ≠
        some (.str r) := by
      intro r hcontra
      have hmem := jvLookup_mem hcontra
      have hprop := successFilter_keyProp ("$ref", JVal.str r) hmem
      exact absurd rfl (statusKeySafe "$ref" hprop).1
    rw [resolveRefs_plainAny D [] md [] ?hl] at hresp
    case hl =>
      intro r hcontra
      exact hnoref r hcontra
    refine ⟨(resolveEntries (successFilter (jsGet op "responses")) D [] md []).1,
      hresp, ?_⟩
    rw [resolveEntries_keys]
    congr 1
    refine List.filter_eq_self.mpr ?_
    intro kv hm
    have hprop := successFilter_keyProp kv hm
    simp [(statusKeySafe kv.1 hprop).2]

/-- C6 witness: on the counterexample document, the per-operation shape
    instantiates — the operation under `/p`, `get` is found and its
    responses are the resolved `2xx` subset. -/
theorem claim6_processedOperationShape_witness :
    jvLookup (processSpecPaths exD6 50 (extractServerBasePath exD6)
        (if nullish (jsGet exD6 "paths") then .obj [] else jsGet exD6 "paths"))
        (fullPathOf (extractServerBasePath exD6) "/p") =
      some (.obj (buildItem exD6 50
        (.obj [("get", .obj [("responses",
          .obj [("200", .str "ok"), ("404", .str "no")])])]))) := by
  have h := (claim6_processedOperationShape exD6 50).2.1
    (if nullish (jsGet exD6 "paths") then .obj [] else jsGet exD6 "paths")
    (extractServerBasePath exD6) "/p"
    (.obj [("get", .obj [("responses",
      .obj [("200", .str "ok"), ("404", .str "no")])])])
    (by simp [exD6, jsGet, jvLookup, nullish, jsEntries])
    (by simp [truthy])
    (by simp [exD6, jsGet, jvLookup, nullish, jsEntries, truthy, fullPathOf])
  exact h

/-! ## Idempotence of `processSpec`

The second pass is the identity on first-pass outputs as long as two things
hold of the input document: every `$ref` own key is string-valued (otherwise
a non-string `$ref` entry can resolve into a string-valued one, which the
second pass would try to follow), and no operation's responses mapping gains
`2xx`/`default` status keys only through resolution (otherwise the success
filter fires in the second pass but not the first).  The development builds
a well-formedness predicate satisfied by first-pass outputs and shows
resolution is the identity on well-formed values. -/

/-- String test on a value. -/
def isStrB : JVal → Bool
  | .str _ => true
  | _ => false

mutual

/-- Input-side condition: every `$ref` own key anywhere holds a string. -/
def roVal : JVal → Bool
  | .arr xs => roList xs
  | .obj kvs => roEntries kvs
  | _ => true

def roList : List JVal → Bool
  | [] => true
  | x :: rest => roVal x && roList rest

def roEntries : List (String × JVal) → Bool
  | [] => true
  | (k, v) :: rest => (k != "$ref" || isStrB v) && roVal v && roEntries rest

end

/-- The exact unsafe-ref marker object for `r`. -/
def isUnsafeMarker : List (String × JVal) → String → Bool
  | [(k1, .str r2), (k2, .str e)], r =>
      k1 == "$ref" && k2 == "$error" && r2 == r && e == "unsafe ref path"
  | _, _ => false

mutual

/-- Output-side well-formedness: no dangerous keys; every object with a
    string-valued `$ref` is exactly an unsafe-ref marker whose pointer has a
    dangerous segment; no object carries a non-string `$ref`. -/
def wfVal : JVal → Bool
  | .arr xs => wfList xs
  | .obj kvs =>
      (match jvLookup kvs "$ref" with
       | some (.str r) => isUnsafeMarker kvs r && (refParts r).any dangerousKey
       | some _ => false
       | none => true) && wfEntries kvs
  | _ => true

def wfList : List JVal → Bool
  | [] => true
  | x :: rest => wfVal x && wfList rest

def wfEntries : List (String × JVal) → Bool
  | [] => true
  | (k, v) :: rest => !dangerousKey k && wfVal v && wfEntries rest

end

theorem roEntries_value {kvs : List (String × JVal)} (h : roEntries kvs = true)
    {k : String} {v : JVal} (hm : (k, v) ∈ kvs) : roVal v = true := by
  induction kvs with
  | nil => simp at hm
  | cons kv rest ih =>
      obtain ⟨k2, w⟩ := kv
      rw [roEntries, Bool.and_eq_true, Bool.and_eq_true] at h
      rcases List.mem_cons.mp hm with he | hm2
      · rw [Prod.mk.injEq] at he
        rw [he.2]
        exact h.1.2
      · exact ih h.2 hm2

theorem roList_mem {xs : List JVal} (h : roList xs = true)
    {x : JVal} (hm : x ∈ xs) : roVal x = true := by
  induction xs with
  | nil => simp at hm
  | cons y rest ih =>
      rw [roList, Bool.and_eq_true] at h
      rcases List.mem_cons.mp hm with rfl | hm2
      · exact h.1
      · exact ih h.2 hm2

theorem roVal_jsGet {v : JVal} (h : roVal v = true) (k : String) :
    roVal (jsGet v k) = true := by
  cases v with
  | obj kvs =>
      rw [jsGet]
      cases hl : jvLookup kvs k with
      | none => simp [roVal]
      | some w =>
          simp only [Option.getD_some]
          exact roEntries_value (by simpa [roVal] using h) (jvLookup_mem hl)
  | arr xs => simp [jsGet, roVal]
  | str s => simp [jsGet, roVal]
  | num n => simp [jsGet, roVal]
  | bool b => simp [jsGet, roVal]
  | null => simp [jsGet, roVal]
  | undef => simp [jsGet, roVal]

theorem roVal_walkStep {v : JVal} (h : roVal v = true) (part : String) :
    roVal (walkStep v part) = true := by
  cases v with
  | obj kvs => exact roVal_jsGet h part
  | arr xs =>
      have hsub : ∀ n, roVal ((xs.get? n).getD JVal.undef) = true := by
        intro n
        cases hg : xs.get? n with
        | none => simp [roVal]
        | some x =>
            exact roList_mem (by simpa [roVal] using h) (List.get?_mem hg)
      rw [walkStep]
      cases canonIndex part with
      | none => simp [roVal]
      | some n => exact hsub n
  | str s => simp [walkStep, roVal]
  | num n => simp [walkStep, roVal]
  | bool b => simp [walkStep, roVal]
  | null => simp [walkStep, roVal]
  | undef => simp [walkStep, roVal]

theorem roVal_walkParts {root : JVal} (h : roVal root = true)
    (parts : List String) : roVal (walkParts root parts) = true := by
  rw [walkParts]
  induction parts generalizing root with
  | nil => exact h
  | cons p rest ih => exact ih (roVal_walkStep h p)

/-- Under `roEntries`, a `$ref` key that is not string-valued cannot exist:
    if no string-valued `$ref` lookup succeeds, the lookup fails outright. -/
theorem roEntries_refLookup {kvs : List (String × JVal)}
    (h : roEntries kvs = true)
    (hn : ∀ r, jvLookup kvs "$ref" ≠ some (.str r)) :
    jvLookup kvs "$ref" = none := by
  induction kvs with
  | nil => rfl
  | cons kv rest ih =>
      obtain ⟨k2, v2⟩ := kv
      rw [roEntries, Bool.and_eq_true, Bool.and_eq_true] at h
      by_cases hk : k2 = "$ref"
      · subst hk
        exfalso
        have hstr : isStrB v2 = true := by simpa using h.1.1
        cases v2 with
        | str s => exact hn s (by simp [jvLookup])
        | num n => simp [isStrB] at hstr
        | bool b => simp [isStrB] at hstr
        | null => simp [isStrB] at hstr
        | undef => simp [isStrB] at hstr
        | arr xs => simp [isStrB] at hstr
        | obj kvs2 => simp [isStrB] at hstr
      · rw [jvLookup, if_neg (by simpa using hk)]
        refine ih h.2 ?_
        intro r hr
        exact hn r (by rw [jvLookup, if_neg (by simpa using hk)]; exact hr)

/-- The unsafe-marker recogniser pins the entry list exactly. -/
theorem isUnsafeMarker_eq {kvs : List (String × JVal)} {r : String}
    (h : isUnsafeMarker kvs r = true) :
    kvs = [("$ref", .str r), ("$error", .str "unsafe ref path")] := by
  match kvs, h with
  | [(k1, .str r2), (k2, .str e)], h =>
      rw [isUnsafeMarker] at h
      simp only [Bool.and_eq_true, beq_iff_eq] at h
      obtain ⟨⟨⟨h1, h2⟩, h3⟩, h4⟩ := h
      subst h1; subst h2; subst h3; subst h4
      rfl

theorem jvLookup_none_keys {kvs : List (String × JVal)} {x : String}
    (h : jvLookup kvs x = none) : ∀ kv ∈ kvs, ¬ kv.1 = x := by
  induction kvs with
  | nil => simp
  | cons kv rest ih =>
      obtain ⟨k, v⟩ := kv
      intro kv2 hm
      by_cases hk : k = x
      · rw [jvLookup, if_pos (by simpa using hk)] at h
        exact absurd h (by simp)
      · rw [jvLookup, if_neg (by simpa using hk)] at h
        rcases List.mem_cons.mp hm with rfl | hm2
        · simpa using hk
        · exact ih h kv2 hm2

/-- Every value stored in the cache is well-formed. -/
def cacheWF (c : Cache) : Prop := ∀ kv ∈ c, wfVal kv.2 = true

/-- Resolution of a ref-string-only value against a ref-string-only root
    produces a well-formed value and preserves cache well-formedness. -/
theorem wfPres : ∀ (v root : JVal) (seen : List String) (md : Nat) (cache : Cache),
    roVal root = true → roVal v = true → cacheWF cache →
    wfVal (resolveRefs v root seen md cache).1 = true ∧
    cacheWF (resolveRefs v root seen md cache).2 := by
  intro v root seen md cache
  refine resolveRefs.induct
    (fun v root seen md cache => roVal root = true → roVal v = true →
      cacheWF cache →
      wfVal (resolveRefs v root seen md cache).1 = true ∧
      cacheWF (resolveRefs v root seen md cache).2)
    (fun xs root seen md cache => roVal root = true → roList xs = true →
      cacheWF cache →
      wfList (resolveList xs root seen md cache).1 = true ∧
      cacheWF (resolveList xs root seen md cache).2)
    (fun kvs root seen md cache => roVal root = true → roEntries kvs = true →
      cacheWF cache →
      wfEntries (resolveEntries kvs root seen md cache).1 = true ∧
      cacheWF (resolveEntries kvs root seen md cache).2)
    ?_ ?_ ?_ ?_ ?_ ?_ ?_ ?_ ?_ ?_ ?_ ?_ ?_ v root seen md cache
  · intro root seen md cache kvs ref hl hs hroot hro hcwf
    rw [resolveRefs_circular root seen md cache hl hs]
    refine ⟨by simp [wfVal, wfEntries, jvLookup, dangerousKey], hcwf⟩
  · intro root seen md cache kvs ref hl hs hdep hroot hro hcwf
    rw [resolveRefs, hl]
    simp only [if_neg hs, if_pos hdep]
    refine ⟨by simp [wfVal, wfEntries, jvLookup, dangerousKey], hcwf⟩
  · intro root seen md cache kvs ref hl hs hdep v2 hcache hroot hro hcwf
    rw [resolveRefs_cached root seen md cache hl hs (by omega) hcache]
    exact ⟨hcwf _ (mapFind_mem hcache), hcwf⟩
  · intro root seen md cache kvs ref hl hs hdep hcache hdg hroot hro hcwf
    rw [resolveRefs_unsafeMarker root seen md cache hl hs (by omega) hcache hdg]
    refine ⟨?_, hcwf⟩
    simp [wfVal, wfEntries, jvLookup, isUnsafeMarker, dangerousKey, hdg]
  · intro root seen md cache kvs ref hl hs hdep hcache hdg target ih hroot hro hcwf
    rw [resolveRefs_refStep root seen md cache hl hs (by omega) hcache
      (by simpa using hdg)]
    have hrot : roVal (walkParts root (refParts ref)) = true :=
      roVal_walkParts hroot (refParts ref)
    obtain ⟨h1, h2⟩ := ih hroot hrot hcwf
    have h1b : wfVal (resolveRefs (walkParts root (refParts ref)) root
        (seen ++ [ref]) md cache).1 = true := h1
    have h2b : ∀ kv ∈ (resolveRefs (walkParts root (refParts ref)) root
        (seen ++ [ref]) md cache).2, wfVal kv.2 = true := h2
    refine ⟨h1b, ?_⟩
    intro kv hm
    exact @mapSet_forall (fun x => wfVal x = true) _ ref _ h2b h1b kv hm
  · intro root seen md cache kvs hnref ih hroot hro hcwf
    rw [resolveRefs_plainAny root seen md cache (fun r h => hnref r h)]
    have hroE : roEntries kvs = true := by simpa [roVal] using hro
    obtain ⟨h1, h2⟩ := ih hroot hroE hcwf
    refine ⟨?_, h2⟩
    have hlnone : jvLookup kvs "$ref" = none :=
      roEntries_refLookup hroE (fun r h => hnref r h)
    have houtnone : jvLookup (resolveEntries kvs root seen md cache).1 "$ref" = none := by
      refine jvLookup_none_of_keys ?_
      intro kv hm
      have hk : kv.1 ∈ ((resolveEntries kvs root seen md cache).1).map Prod.fst :=
        List.mem_map_of_mem Prod.fst hm
      rw [resolveEntries_keys] at hk
      obtain ⟨kv2, hkv2, heq⟩ := List.mem_map.mp hk
      rw [← heq]
      exact jvLookup_none_keys hlnone kv2 (List.mem_filter.mp hkv2).1
    rw [wfVal, houtnone]
    simpa using h1
  · intro root seen md cache xs ih hroot hro hcwf
    rw [resolveRefs]
    have hroL : roList xs = true := by simpa [roVal] using hro
    obtain ⟨h1, h2⟩ := ih hroot hroL hcwf
    exact ⟨by simpa [wfVal] using h1, h2⟩
  · intro v root seen md cache hno hna hroot hro hcwf
    have hv : resolveRefs v root seen md cache = (v, cache) := by
      cases v with
      | obj kvs => exact absurd rfl (hno kvs)
      | arr xs => exact absurd rfl (hna xs)
      | str s => simp [resolveRefs]
      | num n => simp [resolveRefs]
      | bool b => simp [resolveRefs]
      | null => simp [resolveRefs]
      | undef => simp [resolveRefs]
    rw [hv]
    refine ⟨?_, hcwf⟩
    cases v with
    | obj kvs => exact absurd rfl (hno kvs)
    | arr xs => exact absurd rfl (hna xs)
    | str s => simp [wfVal]
    | num n => simp [wfVal]
    | bool b => simp [wfVal]
    | null => simp [wfVal]
    | undef => simp [wfVal]
  · intro root seen md cache hroot hro hcwf
    rw [resolveList]
    exact ⟨by simp [wfList], hcwf⟩
  · intro root seen md cache x rest rc ih1 ih2 hroot hro hcwf
    rw [resolveList]
    rw [roList, Bool.and_eq_true] at hro
    obtain ⟨h1, h2⟩ := ih1 hroot hro.1 hcwf
    obtain ⟨h3, h4⟩ := ih2 hroot hro.2 h2
    exact ⟨by simp [wfList, h1, h3], h4⟩
  · intro root seen md cache hroot hro hcwf
    rw [resolveEntries]
    exact ⟨by simp [wfEntries], hcwf⟩
  · intro root seen md cache k v rest hdk ih hroot hro hcwf
    rw [resolveEntries, if_pos hdk]
    rw [roEntries, Bool.and_eq_true, Bool.and_eq_true] at hro
    exact ih hroot hro.2 hcwf
  · intro root seen md cache k v rest hdk rc ih1 ih2 hroot hro hcwf
    rw [resolveEntries, if_neg hdk]
    rw [roEntries, Bool.and_eq_true, Bool.and_eq_true] at hro
    obtain ⟨h1, h2⟩ := ih1 hroot hro.1.2 hcwf
    obtain ⟨h3, h4⟩ := ih2 hroot hro.2 h2
    refine ⟨?_, h4⟩
    simp only [wfEntries, h1, h3, Bool.and_true, Bool.true_and]
    simpa using hdk

/-- Resolution is the identity on well-formed values: with an empty ancestor
    chain, an empty cache and a positive depth bound, a well-formed value
    resolves to itself and leaves the cache empty. -/
theorem resolveRefs_id : ∀ (v root : JVal) (seen : List String) (md : Nat)
    (cache : Cache), seen = [] → cache = [] → 0 < md → wfVal v = true →
    resolveRefs v root seen md cache = (v, []) := by
  intro v root seen md cache
  refine resolveRefs.induct
    (fun v root seen md cache => seen = [] → cache = [] → 0 < md →
      wfVal v = true → resolveRefs v root seen md cache = (v, []))
    (fun xs root seen md cache => seen = [] → cache = [] → 0 < md →
      wfList xs = true → resolveList xs root seen md cache = (xs, []))
    (fun kvs root seen md cache => seen = [] → cache = [] → 0 < md →
      wfEntries kvs = true → resolveEntries kvs root seen md cache = (kvs, []))
    ?_ ?_ ?_ ?_ ?_ ?_ ?_ ?_ ?_ ?_ ?_ ?_ ?_ v root seen md cache
  · intro root seen md cache kvs ref hl hs hseen hcache hmd hwf
    subst hseen
    simp at hs
  · intro root seen md cache kvs ref hl hs hdep hseen hcache hmd hwf
    subst hseen
    simp at hdep
    omega
  · intro root seen md cache kvs ref hl hs hdep v2 hfound hseen hcache hmd hwf
    subst hcache
    simp [mapFind] at hfound
  · intro root seen md cache kvs ref hl hs hdep hfound hdg hseen hcache hmd hwf
    subst hseen
    subst hcache
    rw [wfVal, hl, Bool.and_eq_true, Bool.and_eq_true] at hwf
    rw [resolveRefs_unsafeMarker root [] md [] hl hs (by simpa using hmd)
      (by simp [mapFind]) hdg]
    rw [isUnsafeMarker_eq hwf.1.1]
  · intro root seen md cache kvs ref hl hs hdep hfound hdg target ih hseen hcache
      hmd hwf
    exfalso
    rw [wfVal, hl, Bool.and_eq_true, Bool.and_eq_true] at hwf
    exact hdg hwf.1.2
  · intro root seen md cache kvs hnref ih hseen hcache hmd hwf
    rw [resolveRefs_plainAny root seen md cache (fun r h => hnref r h)]
    have hwfE : wfEntries kvs = true := by
      rw [wfVal, Bool.and_eq_true] at hwf
      exact hwf.2
    rw [ih hseen hcache hmd hwfE]
  · intro root seen md cache xs ih hseen hcache hmd hwf
    rw [resolveRefs]
    rw [ih hseen hcache hmd (by simpa [wfVal] using hwf)]
  · intro v root seen md cache hno hna hseen hcache hmd hwf
    subst hcache
    cases v with
    | obj kvs => exact absurd rfl (hno kvs)
    | arr xs => exact absurd rfl (hna xs)
    | str s => simp [resolveRefs]
    | num n => simp [resolveRefs]
    | bool b => simp [resolveRefs]
    | null => simp [resolveRefs]
    | undef => simp [resolveRefs]
  · intro root seen md cache hseen hcache hmd hwf
    subst hcache
    rw [resolveList]
  · intro root seen md cache x rest rc ih1 ih2 hseen hcache hmd hwf
    rw [wfList, Bool.and_eq_true] at hwf
    have h1 := ih1 hseen hcache hmd hwf.1
    have hrc : rc = (x, ([] : Cache)) := h1
    have h3 := ih2 hseen (by rw [hrc]) hmd hwf.2
    rw [hrc] at h3
    simp only [Prod.snd] at h3
    rw [resolveList]
    simp [h1, h3]
  · intro root seen md cache hseen hcache hmd hwf
    subst hcache
    rw [resolveEntries]
  · intro root seen md cache k v rest hdk ih hseen hcache hmd hwf
    exfalso
    rw [wfEntries, Bool.and_eq_true, Bool.and_eq_true] at hwf
    have := hwf.1.1
    rw [hdk] at this
    simp at this
  · intro root seen md cache k v rest hdk rc ih1 ih2 hseen hcache hmd hwf
    rw [wfEntries, Bool.and_eq_true, Bool.and_eq_true] at hwf
    have h1 := ih1 hseen hcache hmd hwf.1.2
    have hrc : rc = (v, ([] : Cache)) := h1
    have h3 := ih2 hseen (by rw [hrc]) hmd hwf.2
    rw [hrc] at h3
    simp only [Prod.snd] at h3
    rw [resolveEntries, if_neg hdk]
    simp [h1, h3]

theorem idxEntries_value : ∀ (xs : List JVal) (i : Nat) (k : String) (w : JVal),
    (k, w) ∈ idxEntries i xs → w ∈ xs := by
  intro xs
  induction xs with
  | nil => intro i k w hm; simp [idxEntries] at hm
  | cons x rest ih =>
      intro i k w hm
      rw [idxEntries] at hm
      rcases List.mem_cons.mp hm with he | hm2
      · rw [Prod.mk.injEq] at he
        rw [← he.2]
        exact List.mem_cons_self w rest
      · exact List.mem_cons_of_mem x (ih (i + 1) k w hm2)

/-- Entry values of a ref-string-only value are ref-string-only. -/
theorem roVal_entryVal {v : JVal} (h : roVal v = true) {k : String} {w : JVal}
    (hm : (k, w) ∈ jsEntries v) : roVal w = true := by
  cases v with
  | obj kvs => exact roEntries_value (by simpa [roVal] using h) hm
  | arr xs =>
      exact roList_mem (by simpa [roVal] using h)
        (idxEntries_value xs 0 k w (by simpa [jsEntries] using hm))
  | str s => simp [jsEntries] at hm
  | num n => simp [jsEntries] at hm
  | bool b => simp [jsEntries] at hm
  | null => simp [jsEntries] at hm
  | undef => simp [jsEntries] at hm

theorem roEntries_of_forall :
    ∀ kvs : List (String × JVal),
      (∀ kv ∈ kvs, (kv.1 != "$ref" || isStrB kv.2) = true ∧ roVal kv.2 = true) →
      roEntries kvs = true := by
  intro kvs
  induction kvs with
  | nil => intro _; rfl
  | cons kv rest ih =>
      intro h
      obtain ⟨k, v⟩ := kv
      rw [roEntries, Bool.and_eq_true, Bool.and_eq_true]
      have hh := h (k, v) (List.mem_cons_self _ _)
      exact ⟨⟨hh.1, hh.2⟩, ih (fun kv2 hm => h kv2 (List.mem_cons_of_mem _ hm))⟩

theorem map_fst_mapSet (k : String) (v : JVal) :
    ∀ c : List (String × JVal), (mapSet c k v).map Prod.fst =
      if k ∈ c.map Prod.fst then c.map Prod.fst else c.map Prod.fst ++ [k] := by
  intro c
  induction c with
  | nil => simp [mapSet]
  | cons kv rest ih =>
      obtain ⟨k2, w⟩ := kv
      by_cases h : k2 = k
      · subst h
        simp [mapSet]
      · have hkt : ¬ k = k2 := fun hh => h hh.symm
        simp only [mapSet, beq_iff_eq, if_neg h, List.map_cons, ih, List.mem_cons]
        by_cases hm : k ∈ rest.map Prod.fst
        · simp [hm, hkt]
        · simp [hm, hkt]

theorem mapSet_append {c : List (String × JVal)} {k : String} (v : JVal)
    (h : k ∉ c.map Prod.fst) : mapSet c k v = c ++ [(k, v)] := by
  induction c with
  | nil => simp [mapSet]
  | cons kv rest ih =>
      obtain ⟨k2, w⟩ := kv
      simp only [List.map_cons, List.mem_cons] at h
      push_neg at h
      rw [mapSet, if_neg (by simpa using (Ne.symm h.1))]
      rw [List.cons_append]
      rw [ih h.2]

theorem pspFold_nodupKeys (spec : JVal) (md : Nat) (bp : String) :
    ∀ (es acc : List (String × JVal)), (acc.map Prod.fst).Nodup →
      ((es.foldl (fun acc pv =>
        if truthy pv.2 then
          mapSet acc (fullPathOf bp pv.1) (.obj (buildItem spec md pv.2))
        else acc) acc).map Prod.fst).Nodup := by
  intro es
  induction es with
  | nil => intro acc h; simpa using h
  | cons e rest ih =>
      intro acc h
      rw [List.foldl_cons]
      by_cases ht : truthy e.2 = true
      · rw [if_pos ht]
        refine ih _ ?_
        rw [map_fst_mapSet]
        by_cases hm : fullPathOf bp e.1 ∈ acc.map Prod.fst
        · simpa [hm] using h
        · simp [hm, List.nodup_append, h]
      · rw [if_neg ht]
        exact ih acc h

theorem pspFold_values (spec : JVal) (md : Nat) (bp : String)
    (Q : JVal → Prop) :
    ∀ (es acc : List (String × JVal)),
      (∀ pv ∈ es, truthy pv.2 = true → Q (.obj (buildItem spec md pv.2))) →
      (∀ kv ∈ acc, Q kv.2) →
      ∀ kv ∈ (es.foldl (fun acc pv =>
        if truthy pv.2 then
          mapSet acc (fullPathOf bp pv.1) (.obj (buildItem spec md pv.2))
        else acc) acc), Q kv.2 := by
  intro es
  induction es with
  | nil => intro acc _ hacc kv hm; exact hacc kv hm
  | cons e rest ih =>
      intro acc hes hacc kv hm
      rw [List.foldl_cons] at hm
      by_cases ht : truthy e.2 = true
      · rw [if_pos ht] at hm
        refine ih _ (fun pv hpv => hes pv (List.mem_cons_of_mem e hpv)) ?_ kv hm
        intro kv2 hm2
        exact @mapSet_forall Q acc (fullPathOf bp e.1) _
          hacc (hes e (List.mem_cons_self e rest) ht) kv2 hm2
      · rw [if_neg ht] at hm
        exact ih acc (fun pv hpv => hes pv (List.mem_cons_of_mem e hpv)) hacc kv hm

theorem pspFold_rebuild (spec2 : JVal) (md : Nat) :
    ∀ (es acc : List (String × JVal)),
      (∀ pv ∈ es, truthy pv.2 = true ∧ .obj (buildItem spec2 md pv.2) = pv.2) →
      ((acc ++ es).map Prod.fst).Nodup →
      es.foldl (fun acc pv =>
        if truthy pv.2 then
          mapSet acc (fullPathOf "" pv.1) (.obj (buildItem spec2 md pv.2))
        else acc) acc = acc ++ es := by
  intro es
  induction es with
  | nil => intro acc _ _; simp
  | cons e rest ih =>
      intro acc h hnd
      rw [List.foldl_cons, if_pos (h e (List.mem_cons_self e rest)).1]
      have hfp : fullPathOf "" e.1 = e.1 := by simp [fullPathOf]
      rw [hfp, (h e (List.mem_cons_self e rest)).2]
      have hnotin : e.1 ∉ acc.map Prod.fst := by
        intro hmem
        rw [List.map_append, List.map_cons] at hnd
        rcases List.nodup_append.mp hnd with ⟨_, _, hdisj⟩
        exact hdisj hmem (List.mem_cons_self _ _)
      rw [mapSet_append e.2 hnotin]
      have hres := ih (acc ++ [(e.1, e.2)])
        (fun pv hpv => h pv (List.mem_cons_of_mem e hpv)) ?_
      · rw [hres, List.append_assoc]
        rfl
      · rw [List.append_assoc]
        simpa using hnd

theorem buildFold_agree (item itemObj D out : JVal) (md : Nat) :
    ∀ (ms : List String) (acc : List (String × JVal)),
      (∀ m ∈ ms, truthy (jsGet itemObj m) = truthy (jsGet item m) ∧
        (truthy (jsGet item m) = true →
          buildOp out md (jsGet itemObj m) = buildOp D md (jsGet item m))) →
      ms.foldl (fun acc m => if truthy (jsGet itemObj m) then
          mapSet acc m (buildOp out md (jsGet itemObj m)) else acc) acc =
      ms.foldl (fun acc m => if truthy (jsGet item m) then
          mapSet acc m (buildOp D md (jsGet item m)) else acc) acc := by
  intro ms
  induction ms with
  | nil => intro acc _; rfl
  | cons m rest ih =>
      intro acc h
      rw [List.foldl_cons, List.foldl_cons]
      have hm := h m (List.mem_cons_self m rest)
      by_cases ht : truthy (jsGet item m) = true
      · rw [if_pos (by rw [hm.1]; exact ht), if_pos ht, hm.2 ht]
        exact ih _ (fun m2 hm2 => h m2 (List.mem_cons_of_mem m hm2))
      · rw [if_neg (by rw [hm.1]; exact ht), if_neg ht]
        exact ih acc (fun m2 hm2 => h m2 (List.mem_cons_of_mem m hm2))

/-- Looking up an absent or falsy method in a processed path item fails. -/
theorem jvLookup_buildItem_none (D : JVal) (md : Nat) (item : JVal) (m : String)
    (hm : m ∈ httpMethods) (ht : ¬ truthy (jsGet item m) = true) :
    jvLookup (buildItem D md item) m = none := by
  rw [httpMethods] at hm
  fin_cases hm <;>
  · simp only [buildItem, httpMethods, List.foldl_cons, List.foldl_nil]
    split_ifs <;>
    simp_all [jvLookup_mapSet_self, jvLookup_mapSet_other, jvLookup]

theorem successFilter_sub {r : JVal} : ∀ kv ∈ successFilter r, kv ∈ jsEntries r := by
  intro kv hm
  rw [successFilter] at hm
  by_cases ht : truthy r = true
  · rw [if_pos ht] at hm
    exact (List.mem_filter.mp hm).1
  · rw [if_neg ht] at hm
    exact absurd hm (List.not_mem_nil kv)

theorem successFilter_noRef (r : JVal) :
    ∀ s, jvLookup (successFilter r) "$ref" ≠ some (.str s) := by
  intro s hl
  have hmem := jvLookup_mem hl
  have hprop := successFilter_keyProp ("$ref", JVal.str s) hmem
  exact absurd rfl (statusKeySafe "$ref" hprop).1

/-- The per-operation proviso: when the raw responses produce an empty
    success filter, the resolved responses must produce an empty one too
    (evaluated lazily, so documents with a direct `2xx`/`default` key never
    force the resolution). -/
def respOK (D : JVal) (md : Nat) (op : JVal) : Bool :=
  if (successFilter (jsGet op "responses")).length == 0 then
    (successFilter ((resolveRefs (jsGet op "responses") D [] md []).1)).length == 0
  else true

/-- The empty cache is well-formed. -/
theorem cacheWF_nil : cacheWF [] := fun kv hm => absurd hm (List.not_mem_nil kv)

/-- Reprocessing a processed operation is the identity: every field of
    `buildOp out md (buildOp D md op)` equals the corresponding field of
    `buildOp D md op`. -/
theorem buildOp_rebuild (D out : JVal) (md : Nat) (op : JVal)
    (hroD : roVal D = true) (hmd : 0 < md) (hroOp : roVal op = true)
    (hresp : respOK D md op = true) :
    buildOp out md (buildOp D md op) = buildOp D md op := by
  have hs : jsGet (buildOp D md op) "summary" = jsGet op "summary" := by
    simp [buildOp, jsGet_obj, jvLookup]
  have hd2 : jsGet (buildOp D md op) "description" = jsGet op "description" := by
    simp [buildOp, jsGet_obj, jvLookup]
  have ht2 : jsGet (buildOp D md op) "tags" = jsGet op "tags" := by
    simp [buildOp, jsGet_obj, jvLookup]
  have hp : jsGet (buildOp D md op) "parameters" =
      (resolveRefs (jsGet op "parameters") D [] md []).1 := by
    simp [buildOp, jsGet_obj, jvLookup]
  have hrb : jsGet (buildOp D md op) "requestBody" =
      (resolveRefs (jsGet op "requestBody") D [] md []).1 := by
    simp [buildOp, jsGet_obj, jvLookup]
  have hr : jsGet (buildOp D md op) "responses" =
      (resolveRefs (if 0 < (successFilter (jsGet op "responses")).length
        then .obj (successFilter (jsGet op "responses"))
        else jsGet op "responses") D [] md []).1 := by
    rw [buildOp, jsGet_obj]
    simp only [jvLookup]
    simp
  have hip := resolveRefs_id ((resolveRefs (jsGet op "parameters") D [] md []).1)
    out [] md [] rfl rfl hmd
    (wfPres (jsGet op "parameters") D [] md [] hroD (roVal_jsGet hroOp _) cacheWF_nil).1
  have hirb := resolveRefs_id ((resolveRefs (jsGet op "requestBody") D [] md []).1)
    out [] md [] rfl rfl hmd
    (wfPres (jsGet op "requestBody") D [] md [] hroD (roVal_jsGet hroOp _) cacheWF_nil).1
  have hrootr : roVal (jsGet op "responses") = true := roVal_jsGet hroOp "responses"
  have hrfinal : (resolveRefs
      (if 0 < (successFilter ((resolveRefs
          (if 0 < (successFilter (jsGet op "responses")).length
           then .obj (successFilter (jsGet op "responses"))
           else jsGet op "responses") D [] md []).1)).length
       then .obj (successFilter ((resolveRefs
          (if 0 < (successFilter (jsGet op "responses")).length
           then .obj (successFilter (jsGet op "responses"))
           else jsGet op "responses") D [] md []).1))
       else (resolveRefs
          (if 0 < (successFilter (jsGet op "responses")).length
           then .obj (successFilter (jsGet op "responses"))
           else jsGet op "responses") D [] md []).1) out [] md []).1 =
      (resolveRefs
        (if 0 < (successFilter (jsGet op "responses")).length
         then .obj (successFilter (jsGet op "responses"))
         else jsGet op "responses") D [] md []).1 := by
    by_cases hc : 0 < (successFilter (jsGet op "responses")).length
    · rw [if_pos hc]
      have hro_sf : roVal (.obj (successFilter (jsGet op "responses"))) = true := by
        have : roEntries (successFilter (jsGet op "responses")) = true := by
          refine roEntries_of_forall _ ?_
          intro kv hm
          refine ⟨?_, roVal_entryVal hrootr (successFilter_sub kv hm)⟩
          have hne := (statusKeySafe kv.1 (successFilter_keyProp kv hm)).1
          simp [hne]
        simpa [roVal] using this
      have hwr1 : wfVal ((resolveRefs (.obj (successFilter (jsGet op "responses")))
          D [] md []).1) = true :=
        (wfPres _ D [] md [] hroD hro_sf cacheWF_nil).1
      have hplain := @resolveRefs_plainAny (successFilter (jsGet op "responses"))
        D [] md [] (successFilter_noRef (jsGet op "responses"))
      have hkeys : ((resolveEntries (successFilter (jsGet op "responses"))
          D [] md []).1).map Prod.fst =
          (successFilter (jsGet op "responses")).map Prod.fst := by
        rw [resolveEntries_keys]
        congr 1
        refine List.filter_eq_self.mpr ?_
        intro kv hm
        simpa using (statusKeySafe kv.1 (successFilter_keyProp kv hm)).2
      have hsf2 : successFilter ((resolveRefs
          (.obj (successFilter (jsGet op "responses"))) D [] md []).1) =
          (resolveEntries (successFilter (jsGet op "responses")) D [] md []).1 := by
        rw [hplain]
        rw [successFilter]
        rw [if_pos (by simp [truthy])]
        refine List.filter_eq_self.mpr ?_
        intro kv hm
        have hk : kv.1 ∈ ((resolveEntries (successFilter (jsGet op "responses"))
            D [] md []).1).map Prod.fst := List.mem_map_of_mem Prod.fst hm
        rw [hkeys] at hk
        obtain ⟨kv2, hkv2, heq⟩ := List.mem_map.mp hk
        have hprop := successFilter_keyProp kv2 hkv2
        rw [heq] at hprop
        exact hprop
      have hlen : 0 < (successFilter ((resolveRefs
          (.obj (successFilter (jsGet op "responses"))) D [] md []).1)).length := by
        rw [hsf2]
        have : ((resolveEntries (successFilter (jsGet op "responses"))
            D [] md []).1).length = (successFilter (jsGet op "responses")).length := by
          have h1 := congrArg List.length hkeys
          simpa using h1
        omega
      rw [if_pos hlen, hsf2, hplain]
      have hobj : JVal.obj ((resolveEntries (successFilter (jsGet op "responses"))
          D [] md []).1) = (JVal.obj ((resolveEntries (successFilter
            (jsGet op "responses")) D [] md []).1), (resolveEntries (successFilter
            (jsGet op "responses")) D [] md []).2).1 := rfl
      rw [resolveRefs_id (JVal.obj ((resolveEntries (successFilter
          (jsGet op "responses")) D [] md []).1)) out [] md [] rfl rfl hmd ?wf1]
      case wf1 =>
        rw [hplain] at hwr1
        exact hwr1
    · rw [if_neg hc]
      have hwr1 : wfVal ((resolveRefs (jsGet op "responses") D [] md []).1) = true :=
        (wfPres _ D [] md [] hroD hrootr cacheWF_nil).1
      have hz : (successFilter (jsGet op "responses")).length == 0 := by
        simp only [beq_iff_eq]
        omega
      rw [respOK, if_pos hz] at hresp
      have hsf2 : (successFilter ((resolveRefs (jsGet op "responses")
          D [] md []).1)).length = 0 := by simpa using hresp
      rw [if_neg (by omega)]
      rw [resolveRefs_id _ out [] md [] rfl rfl hmd hwr1]
  conv_lhs => rw [buildOp]
  rw [hs, hd2, ht2, hp, hrb, hip, hirb, hr, hrfinal]
  conv_rhs => rw [buildOp]

/-- Reprocessing a processed path item rebuilds it unchanged. -/
theorem buildItem_rebuild (D out : JVal) (md : Nat) (item : JVal)
    (hroD : roVal D = true) (hmd : 0 < md) (hroItem : roVal item = true)
    (hresp : ∀ m ∈ httpMethods, truthy (jsGet item m) = true →
      respOK D md (jsGet item m) = true) :
    buildItem out md (.obj (buildItem D md item)) = buildItem D md item := by
  simp only [buildItem]
  refine buildFold_agree item (.obj (buildItem D md item)) D out md httpMethods [] ?_
  intro m hm
  by_cases ht : truthy (jsGet item m) = true
  · have hg : jsGet (.obj (buildItem D md item)) m = buildOp D md (jsGet item m) := by
      rw [jsGet_obj, jvLookup_buildItem D md item m hm ht]
      rfl
    refine ⟨?_, fun _ => ?_⟩
    · rw [hg, ht, buildOp]
      rfl
    · rw [hg]
      exact buildOp_rebuild D out md (jsGet item m) hroD hmd
        (roVal_jsGet hroItem m) (hresp m hm ht)
  · have hg : jsGet (.obj (buildItem D md item)) m = .undef := by
      rw [jsGet_obj, jvLookup_buildItem_none D md item m hm ht]
      rfl
    refine ⟨?_, fun hcon => absurd hcon ht⟩
    rw [hg]
    cases htv : truthy (jsGet item m) with
    | true => exact absurd htv ht
    | false => rfl

/-- The document-level proviso of the amended idempotence statement:
    every truthy operation of every truthy path item satisfies `respOK`. -/
def provisoB (D : JVal) (md : Nat) : Bool :=
  (jsEntries (if nullish (jsGet D "paths") then .obj [] else jsGet D "paths")).all
    (fun pv => !truthy pv.2 ||
      httpMethods.all (fun m => !truthy (jsGet pv.2 m) || respOK D md (jsGet pv.2 m)))

/-- C8: `processSpec` is idempotent — `processSpec (processSpec D) =
    processSpec D` — provided every `$ref` own key of `D` holds a string
    (`roVal`) and no operation whose raw `responses` has no `2xx`/`default`
    status key gains one through resolution (`provisoB`); without these
    provisos the claim is false (see the counterexample). -/
theorem claim8_processSpecIdempotent (D : JVal) (md : Nat)
    (hro : roVal D = true) (hmd : 0 < md) (hprov : provisoB D md = true) :
    processSpec (processSpec D md) md = processSpec D md := by
  set O := processSpec D md with hO
  set rawPaths : JVal :=
    (if nullish (jsGet D "paths") then .obj [] else jsGet D "paths") with hraw
  set P1 : List (String × JVal) :=
    processSpecPaths D md (extractServerBasePath D) rawPaths with hP1
  have hroRaw : roVal rawPaths = true := by
    rw [hraw]
    by_cases hn : nullish (jsGet D "paths") = true
    · rw [if_pos hn]
      simp [roVal, roEntries]
    · rw [if_neg hn]
      exact roVal_jsGet hro "paths"
  have houtO : O = .obj [("paths", .obj P1)] := by
    rw [hO, hP1, hraw, processSpec]
  have hpa : jsGet O "paths" = .obj P1 := by
    rw [houtO]
    simp [jsGet, jvLookup]
  have hnn : nullish (jsGet O "paths") = false := by
    rw [hpa]
    rfl
  have hbp2 : extractServerBasePath O = "" := by
    rw [houtO, extractServerBasePath]
    simp [jsGet, jvLookup]
  have hQ : ∀ kv ∈ P1, truthy kv.2 = true ∧
      JVal.obj (buildItem O md kv.2) = kv.2 := by
    have hfold := pspFold_values D md (extractServerBasePath D)
      (fun w => truthy w = true ∧ JVal.obj (buildItem O md w) = w)
      (jsEntries rawPaths) [] ?_ ?_
    · exact fun kv hm => hfold kv hm
    · intro pv hpv htv
      refine ⟨rfl, ?_⟩
      have hrespPv : ∀ m ∈ httpMethods, truthy (jsGet pv.2 m) = true →
          respOK D md (jsGet pv.2 m) = true := by
        have hall := List.all_eq_true.mp (by rw [provisoB] at hprov; exact hprov)
          pv hpv
        simp only [htv, Bool.not_true, Bool.false_or] at hall
        intro m hm htm
        have h2 := List.all_eq_true.mp hall m hm
        simpa [htm] using h2
      exact congrArg JVal.obj (buildItem_rebuild D O md pv.2 hro hmd
        (roVal_entryVal hroRaw hpv) hrespPv)
    · intro kv hm
      exact absurd hm (List.not_mem_nil kv)
  have hnd : (P1.map Prod.fst).Nodup :=
    pspFold_nodupKeys D md (extractServerBasePath D) (jsEntries rawPaths) []
      (by simp)
  have h1 : processSpec O md = .obj [("paths", .obj (processSpecPaths O md
      (extractServerBasePath O)
      (if nullish (jsGet O "paths") then .obj [] else jsGet O "paths")))] := by
    rw [processSpec]
  rw [h1, hbp2, hnn]
  simp only [Bool.false_eq_true, if_false]
  rw [hpa]
  conv_rhs => rw [houtO]
  have h2 : processSpecPaths O md "" (.obj P1) = P1 := by
    rw [processSpecPaths]
    have h3 := pspFold_rebuild O md P1 [] hQ (by simpa using hnd)
    simpa [jsEntries] using h3
  rw [h2]

/-- The C8 counterexample document: the sole operation's raw `responses` is a
    bare `$ref` (so the first pass keeps the full resolved mapping, `200` and
    `404`), while the second pass sees the resolved status keys and filters
    `404` away. -/
def exD8 : JVal :=
  .obj [("paths", .obj [("/p", .obj [("get", .obj [("responses",
          .obj [("$ref", .str "#/r")])])])]),
        ("r", .obj [("200", .str "ok"), ("404", .str "no")])]

/-- C8 as stated is false: on `exD8` the first pass produces the full
    resolved responses mapping `{200, 404}` — a surviving field — but the
    second pass filters it down to `{200}`, so `processSpec (processSpec D)`
    differs from `processSpec D` on a surviving field. -/
theorem claim8_processSpecIdempotent_counterexample :
    jsGet (jsGet (jsGet (jsGet (processSpec exD8 5) "paths") "/p") "get")
        "responses" = .obj [("200", .str "ok"), ("404", .str "no")] ∧
    jsGet (jsGet (jsGet (jsGet (processSpec (processSpec exD8 5) 5) "paths")
        "/p") "get") "responses" = .obj [("200", .str "ok")] ∧
    jvLookup [("200", JVal.str "ok"), ("404", JVal.str "no")] "404" =
      some (.str "no") ∧
    jvLookup [("200", JVal.str "ok")] "404" = none := by
  refine ⟨?_, ?_, by simp [jvLookup], by simp [jvLookup]⟩ <;>
  simp [exD8, processSpec, processSpecPaths, buildItem, buildOp, successFilter,
    extractServerBasePath, jsEntries, idxEntries, truthy, nullish, httpMethods,
    jsGet, jvLookup, mapSet, mapFind, resolveRefs, resolveList, resolveEntries,
    refParts, walkParts, walkStep, canonIndex, dangerousKey, removeFirst,
    splitSlash, strStarts, fullPathOf]

/-- A concrete document whose sole operation has a direct `200` response:
    both provisos hold and the amended idempotence applies. -/
def exD8w : JVal :=
  .obj [("paths", .obj [("/p", .obj [("get", .obj [("summary", .str "s"),
          ("responses", .obj [("200", .str "ok")])])])])]

theorem claim8_processSpecIdempotent_witness :
    processSpec (processSpec exD8w 5) 5 = processSpec exD8w 5 :=
  claim8_processSpecIdempotent exD8w 5
    (by simp [exD8w, roVal, roList, roEntries, isStrB])
    (by decide)
    (by simp [provisoB, exD8w, respOK, successFilter, jsEntries, idxEntries,
      truthy, nullish, httpMethods, jsGet, jvLookup, strStarts])

end CodemodeProof
